import Mathlib

/-!
Verification of the fingerprint-indexed deduplication and structured-diff
update engine (`src/core/updater.py`, `src/core/memory_store.py`,
`src/core/engine.py`).

Structured documents are modelled by the inductive type `Val`, a shallow
embedding of the Python values that appear as `structured_content`
(`None`, `bool`, `int`, `float`, `str`, `list`, `dict`).  Python dicts are
modelled as insertion-ordered association lists; Python floats are modelled
as exact rationals (none of the verified properties depend on rounding).
Python exceptions are modelled with `Except PyErr`.
-/

set_option maxHeartbeats 1000000
set_option maxRecDepth 10000

namespace SSAnalyzer

/-- Embedding of the Python values that occur in structured content. -/
inductive Val where
  | vnone : Val
  | vbool : Bool → Val
  | vint : Int → Val
  | vfloat : Rat → Val
  | vstr : String → Val
  | vlist : List Val → Val
  | vdict : List (String × Val) → Val
  deriving Repr

/-- Python `type(x)` discriminator: two values have equal tags iff
`type(old_val) == type(new_val)` holds in Python. -/
def Val.typeTag : Val → Nat
  | .vnone => 0
  | .vbool _ => 1
  | .vint _ => 2
  | .vfloat _ => 3
  | .vstr _ => 4
  | .vlist _ => 5
  | .vdict _ => 6

/-- Numeric view used by Python `==` and arithmetic: `bool` is an `int`
subtype (`True == 1`), and `int`/`float` compare by value. -/
def Val.numVal? : Val → Option Rat
  | .vbool b => some (if b then 1 else 0)
  | .vint n => some (n : Rat)
  | .vfloat q => some q
  | _ => none

/-- First value bound to `k` in an association list (Python `d[k]` / `d.get(k)`). -/
def lookupField (k : String) : List (String × Val) → Option Val
  | [] => none
  | (k', v) :: rest => if k' = k then some v else lookupField k rest

/-- Python `k in d`. -/
def containsKey (k : String) : List (String × Val) → Bool
  | [] => false
  | (k', _) :: rest => k' == k || containsKey k rest

/-- Python `d[k] = v` when `k` is already bound: rebinds the first
occurrence in place, preserving insertion order. -/
def setField : List (String × Val) → String → Val → List (String × Val)
  | [], _, _ => []
  | (k', v') :: rest, k, v =>
      if k' = k then (k', v) :: rest else (k', v') :: setField rest k v

/-- Python `d[k] = v` in general: rebind if present, append if absent. -/
def setOrAddField (fields : List (String × Val)) (k : String) (v : Val) :
    List (String × Val) :=
  if containsKey k fields then setField fields k v else fields ++ [(k, v)]

/-- Python `del d[k]`: removes the (first) binding of `k`. -/
def eraseField : List (String × Val) → String → List (String × Val)
  | [], _ => []
  | (k', v') :: rest, k =>
      if k' = k then rest else (k', v') :: eraseField rest k

mutual

/-- Python `==` on embedded values.  `True == 1 == 1.0`; dicts compare by
size and per-key equality; lists compare pointwise. -/
def pyEq : Val → Val → Bool
  | .vnone, .vnone => true
  | .vstr s, .vstr t => s == t
  | .vlist xs, .vlist ys => pyEqList xs ys
  | .vdict p, .vdict q => p.length == q.length && pyEqFields p q
  | a, b =>
      match a.numVal?, b.numVal? with
      | some x, some y => x == y
      | _, _ => false

/-- Pointwise Python `==` on lists of equal length. -/
def pyEqList : List Val → List Val → Bool
  | [], [] => true
  | x :: xs, y :: ys => pyEq x y && pyEqList xs ys
  | _, _ => false

/-- `all(q[k] == v for (k, v) in p.items())`, the per-key half of dict `==`. -/
def pyEqFields : List (String × Val) → List (String × Val) → Bool
  | [], _ => true
  | (k, v) :: rest, q =>
      (match lookupField k q with
       | some w => pyEq v w
       | none => false) && pyEqFields rest q

end

/-- Python `x in xs` for list membership. -/
def memPy (x : Val) (xs : List Val) : Bool :=
  xs.any (fun y => pyEq x y)

/-- `isinstance(x, (str, int, float, bool))`: the guard `_compare_lists`
uses to pick the scalar-membership strategy.  `None` is *not* primitive. -/
def isPrimitive : Val → Bool
  | .vbool _ => true
  | .vint _ => true
  | .vfloat _ => true
  | .vstr _ => true
  | _ => false

/-- Python `s.lower()` (ASCII case mapping). -/
def pyLower (s : String) : String :=
  String.mk (s.data.map Char.toLower)

/-- Python `len(s)` (number of characters). -/
def pyLen (s : String) : Nat :=
  s.data.length

/-- Python `s[:n]` for `0 ≤ n`. -/
def pyTake (s : String) (n : Nat) : String :=
  String.mk (s.data.take n)

/-- Python `sep.join(parts)`. -/
def pyJoin (sep : String) : List String → String
  | [] => ""
  | [x] => x
  | x :: xs => x ++ sep ++ pyJoin sep xs

/-- Python `s.startswith('_')`. -/
def isPrivateKey (k : String) : Bool :=
  match k.data with
  | '_' :: _ => true
  | _ => false

/-- Tokenizer of Python `s.split()` (no argument): split on whitespace
runs, discarding empty tokens.  `acc` holds the current token reversed. -/
def wsTokensAux : List Char → List Char → List String
  | [], acc => if acc.isEmpty then [] else [String.mk acc.reverse]
  | c :: cs, acc =>
      if c.isWhitespace then
        if acc.isEmpty then wsTokensAux cs []
        else String.mk acc.reverse :: wsTokensAux cs []
      else wsTokensAux cs (c :: acc)

/-- Keys are pairwise distinct and none starts with `_`. -/
def keysOk : List (String × Val) → Bool
  | [] => true
  | (k, _) :: rest => !isPrivateKey k && !containsKey k rest && keysOk rest

mutual

/-- Well-formedness of a scalar-and-mapping-only document: no lists
anywhere, dict keys distinct (as in any Python dict), and no key starting
with the private-prefix marker `_`. -/
def isSDoc : Val → Bool
  | .vnone => true
  | .vbool _ => true
  | .vint _ => true
  | .vfloat _ => true
  | .vstr _ => true
  | .vlist _ => false
  | .vdict fields => keysOk fields && allSDoc fields

/-- All values of an association list are scalar-and-mapping documents. -/
def allSDoc : List (String × Val) → Bool
  | [] => true
  | (_, v) :: rest => isSDoc v && allSDoc rest

end

/-! ## Diff engine (`MemoryUpdater` in `src/core/updater.py`) -/

/-- One `DiffOperation`.  `op` is the operation name string; unset
`old_value` / `new_value` default to `None` and `confidence` to `1.0`,
exactly as in the Python dataclass. -/
structure Op where
  op : String
  path : List String
  old_value : Val := .vnone
  new_value : Val := .vnone
  confidence : Rat := 1
  deriving Repr

/-- Python `s.lower().split()`. -/
def lowerWords (s : String) : List String :=
  wsTokensAux (pyLower s).data []

/-- Cardinality of a Python set built from a list (`len(set(xs))`),
modelled by deduplication. -/
def setCard (xs : List String) : Nat :=
  xs.dedup.length

/-- `_compute_similarity`: value similarity in `[0, 1]`.  Equal values give
`1.0`; two strings give Jaccard similarity of their lowercase word sets
(`0.0` when either side is empty or tokenizes empty); two numbers (`bool`
counts as a number, as in Python) give `1 - |a-b| / max(|a|,|b|)` with
both-zero giving `1.0` and exactly-one-zero giving `0.0`; anything else
gives `0.0`. -/
def computeSimilarity (oldVal newVal : Val) : Rat :=
  if pyEq oldVal newVal then 1
  else
    match oldVal, newVal with
    | .vstr s, .vstr t =>
        if s = "" ∨ t = "" then 0
        else
          let ws := lowerWords s
          let wt := lowerWords t
          if ws = [] ∨ wt = [] then 0
          else
            let inter := (ws.dedup.filter (fun w => wt.contains w)).length
            let union := setCard (ws ++ wt)
            (inter : Rat) / (union : Rat)
    | a, b =>
        match a.numVal?, b.numVal? with
        | some x, some y =>
            if x = 0 ∧ y = 0 then 1
            else if x = 0 ∨ y = 0 then 0
            else 1 - |x - y| / max |x| |y|
        | _, _ => 0

/-- `_compare_lists` on two sequences.  Lists of primitives are compared by
membership: every occurrence of a new-list element missing from the old
list emits an `add`, every occurrence of an old-list element missing from
the new list emits a `remove`, all at the *sequence's own path*.  Any other
pair of unequal lists emits a single whole-list `update` with confidence
`0.8`. -/
def compareLists (oldList newList : List Val) (path : List String) : List Op :=
  if oldList.all isPrimitive ∧ newList.all isPrimitive then
    let added := newList.filter (fun x => !memPy x oldList)
    let removed := oldList.filter (fun x => !memPy x newList)
    added.map (fun item => { op := "add", path := path, new_value := item }) ++
      removed.map (fun item => { op := "remove", path := path, old_value := item })
  else
    if pyEqList oldList newList then []
    else
      [{ op := "update", path := path, old_value := .vlist oldList,
         new_value := .vlist newList, confidence := 8 / 10 }]

/-- Pass of `_compare_dicts` over the new-only keys: each key of the new
dict that is absent from the old dict (and not `_`-prefixed) emits an
`add`. -/
def addsNew (oldDict newDict : List (String × Val)) (path : List String) : List Op :=
  newDict.filterMap (fun kw =>
    if isPrivateKey kw.1 ∨ containsKey kw.1 oldDict then none
    else some { op := "add", path := path ++ [kw.1], new_value := kw.2 })

mutual

/-- `_compare_values`: type change emits an `update` with confidence `1.0`;
two dicts recurse key-by-key; two lists go to `_compare_lists`; unequal
scalars emit an `update` with similarity confidence. -/
def compareValues (oldVal newVal : Val) (path : List String) : List Op :=
  if oldVal.typeTag ≠ newVal.typeTag then
    [{ op := "update", path := path, old_value := oldVal, new_value := newVal,
       confidence := 1 }]
  else
    match oldVal, newVal with
    | .vdict oldDict, .vdict newDict =>
        compareFieldsOld oldDict newDict path ++ addsNew oldDict newDict path
    | .vlist oldList, .vlist newList => compareLists oldList newList path
    | a, b =>
        if pyEq a b then []
        else
          [{ op := "update", path := path, old_value := a, new_value := b,
             confidence := computeSimilarity a b }]

/-- Pass of `_compare_dicts` over the keys of the old dict (Python iterates
once over an unordered key-set union; we enumerate the same keys as the old
keys followed by the new-only keys, see `addsNew`): keys starting with `_`
are skipped, keys missing from the new dict emit `remove`, keys present in
both recurse. -/
def compareFieldsOld (oldDict : List (String × Val)) (newDict : List (String × Val))
    (path : List String) : List Op :=
  match oldDict with
  | [] => []
  | (k, v) :: rest =>
      (if isPrivateKey k then []
       else
         match lookupField k newDict with
         | none => [{ op := "remove", path := path ++ [k], old_value := v }]
         | some w => compareValues v w (path ++ [k])) ++
        compareFieldsOld rest newDict path

end

/-- `_compute_structured_diff`: root-level comparison of two structured
contents.  Identical to one level of dict comparison at the empty path. -/
def computeStructuredDiff (oldDoc newDoc : List (String × Val)) : List Op :=
  compareFieldsOld oldDoc newDoc [] ++ addsNew oldDoc newDoc []

/-! ## Patcher (`apply_diff` and the `_*_nested` helpers) -/

/-- The Python exceptions relevant to patch application.  `apply_diff`
catches `KeyError`, `IndexError` and `TypeError`; `ValueError` (raised by
`int(...)` on a non-numeric sequence index) is *not* caught. -/
inductive PyErr where
  | keyError
  | indexError
  | typeError
  | valueError
  deriving Repr, DecidableEq

/-- Valid Python integer-literal digit run: digits with single underscores
strictly between digits. -/
def validDigits (cs : List Char) : Bool :=
  match cs with
  | [] => false
  | c0 :: _ =>
      c0.isDigit && ((cs.getLast?.map Char.isDigit).getD false) &&
        cs.all (fun c => c.isDigit || c == '_') &&
        !((cs.zip cs.tail).any (fun p => p.1 == '_' && p.2 == '_'))

/-- Python `int(s)` on a string: optional surrounding whitespace, optional
sign, digit run; `none` models `ValueError`. -/
def pyToInt (s : String) : Option Int :=
  let cs := ((s.data.dropWhile Char.isWhitespace).reverse.dropWhile
    Char.isWhitespace).reverse
  let signAndDigits : Int × List Char :=
    match cs with
    | '+' :: r => (1, r)
    | '-' :: r => (-1, r)
    | r => (1, r)
  if validDigits signAndDigits.2 then
    some (signAndDigits.1 *
      ((signAndDigits.2.filter (fun c => c ≠ '_')).foldl
        (fun acc c => 10 * acc + (c.toNat - 48)) 0 : Nat))
  else none

/-- `_update_nested`: walk `path[:-1]` creating missing dict levels, then
set the final segment.  A dict target is assigned directly; a list target
requires an in-bounds non-negative integer index; a scalar target is
silently ignored (no `isinstance` branch matches).  A non-dict intermediate
raises `TypeError`; an empty path raises `IndexError` (`path[-1]`). -/
def updateNested : Val → List String → Val → Except PyErr Val
  | _, [], _ => .error .indexError
  | obj, [last] , value =>
      match obj with
      | .vdict fields => .ok (.vdict (setOrAddField fields last value))
      | .vlist xs =>
          match pyToInt last with
          | none => .error .valueError
          | some i =>
              if 0 ≤ i ∧ i < xs.length then .ok (.vlist (xs.set i.toNat value))
              else .error .indexError
      | other => .ok other
  | obj, key :: restutail, value =>
      match obj with
      | .vdict fields =>
          match updateNested ((lookupField key fields).getD (.vdict [])) restutail value with
          | .ok newCur => .ok (.vdict (setOrAddField fields key newCur))
          | .error e => .error e
      | _ => .error .typeError

/-- `_add_to_nested`: walk `path[:-1]` creating missing dict levels, then
add at the final segment.  In a dict: set if absent, append if the existing
value is a list, else coalesce to `[old, new]`.  In a list: integer index
required (`ValueError` otherwise); an index at or past the end extends the
list with `None` placeholders; a negative index follows Python indexing
(`IndexError` when below `-len`).  A scalar target is silently ignored. -/
def addToNested : Val → List String → Val → Except PyErr Val
  | _, [], _ => .error .indexError
  | obj, [last], value =>
      match obj with
      | .vdict fields =>
          match lookupField last fields with
          | none => .ok (.vdict (fields ++ [(last, value)]))
          | some (.vlist xs) => .ok (.vdict (setField fields last (.vlist (xs ++ [value]))))
          | some existing => .ok (.vdict (setField fields last (.vlist [existing, value])))
      | .vlist xs =>
          match pyToInt last with
          | none => .error .valueError
          | some i =>
              if i ≥ xs.length then
                .ok (.vlist ((xs ++ List.replicate (i.toNat + 1 - xs.length) Val.vnone).set i.toNat value))
              else if 0 ≤ i then .ok (.vlist (xs.set i.toNat value))
              else if 0 ≤ i + xs.length then .ok (.vlist (xs.set (i + xs.length).toNat value))
              else .error .indexError
      | other => .ok other
  | obj, key :: restatail, value =>
      match obj with
      | .vdict fields =>
          match addToNested ((lookupField key fields).getD (.vdict [])) restatail value with
          | .ok newCur => .ok (.vdict (setOrAddField fields key newCur))
          | .error e => .error e
      | _ => .error .typeError

/-- `_remove_from_nested`: walk `path[:-1]` *without* creating levels — a
missing intermediate key returns silently.  At the final segment: delete a
present dict key, pop an in-bounds list index (out-of-bounds is silent),
silently ignore a scalar.  A non-dict intermediate raises `TypeError`
(either on the membership test or on string indexing). -/
def removeFromNested : Val → List String → Except PyErr Val
  | _, [] => .error .indexError
  | obj, [last] =>
      match obj with
      | .vdict fields =>
          if containsKey last fields then .ok (.vdict (eraseField fields last))
          else .ok (.vdict fields)
      | .vlist xs =>
          match pyToInt last with
          | none => .error .valueError
          | some i =>
              if 0 ≤ i ∧ i < xs.length then .ok (.vlist (xs.eraseIdx i.toNat))
              else .ok (.vlist xs)
      | other => .ok other
  | obj, key :: restrtail =>
      match obj with
      | .vdict fields =>
          match lookupField key fields with
          | none => .ok (.vdict fields)
          | some v =>
              match removeFromNested v restrtail with
              | .ok newCur => .ok (.vdict (setField fields key newCur))
              | .error e => .error e
      | .vlist xs =>
          if memPy (.vstr key) xs then .error .typeError else .ok (.vlist xs)
      | _ => .error .typeError

/-- Dispatch of one operation inside `apply_diff`'s loop; operation names
other than the three known ones are silently ignored. -/
def applyOne (doc : Val) (operation : Op) : Except PyErr Val :=
  if operation.op = "update" then updateNested doc operation.path operation.new_value
  else if operation.op = "add" then addToNested doc operation.path operation.new_value
  else if operation.op = "remove" then removeFromNested doc operation.path
  else .ok doc

/-- `apply_diff`: apply the operations in order to (a deep copy of) the
content.  `KeyError` / `IndexError` / `TypeError` from a single operation
are caught: the operation is skipped and the remaining ones still applied.
`ValueError` is not in the except clause and aborts the whole call. -/
def applyDiff (oldContent : Val) : List Op → Except PyErr Val
  | [] => .ok oldContent
  | operation :: rest =>
      match applyOne oldContent operation with
      | .ok newDoc => applyDiff newDoc rest
      | .error .valueError => .error .valueError
      | .error _ => applyDiff oldContent rest

/-! ## Incremental summary (`_generate_incremental_summary`) -/

/-- Rendering of a rational float value, approximating CPython float
`str()`; no verified property depends on the exact rendering. -/
def ratStr (q : Rat) : String :=
  if q.den = 1 then toString q.num ++ ".0" else toString q

/-- The apostrophe character, used by Python `repr` of strings. -/
def quoteChar : String :=
  String.singleton (Char.ofNat 39)

mutual

/-- Python `str(x)` as used by the summary f-strings. -/
def pyStr : Val → String
  | .vnone => "None"
  | .vbool true => "True"
  | .vbool false => "False"
  | .vint n => toString n
  | .vfloat q => ratStr q
  | .vstr s => s
  | .vlist xs => "[" ++ ", ".intercalate (pyReprList xs) ++ "]"
  | .vdict fields => "\x7b" ++ ", ".intercalate (pyReprFields fields) ++ "\x7d"

/-- Python `repr(x)` (container elements are rendered with `repr`). -/
def pyRepr : Val → String
  | .vstr s => quoteChar ++ s ++ quoteChar
  | v => pyStrAgain v

/-- `str` on non-string values coincides with `repr`; this indirection only
breaks the mutual recursion. -/
def pyStrAgain : Val → String
  | .vnone => "None"
  | .vbool true => "True"
  | .vbool false => "False"
  | .vint n => toString n
  | .vfloat q => ratStr q
  | .vstr s => s
  | .vlist xs => "[" ++ ", ".intercalate (pyReprList xs) ++ "]"
  | .vdict fields => "\x7b" ++ ", ".intercalate (pyReprFields fields) ++ "\x7d"

def pyReprList : List Val → List String
  | [] => []
  | x :: xs => pyRepr x :: pyReprList xs

def pyReprFields : List (String × Val) → List String
  | [] => []
  | (k, v) :: rest =>
      (quoteChar ++ k ++ quoteChar ++ ": " ++ pyRepr v) :: pyReprFields rest

end

/-- Python `needle in hay` on strings (substring containment). -/
def containsSub (hay needle : String) : Bool :=
  hay.data.tails.any (fun t => needle.data.isPrefixOf t)

/-- The fixed keyword list scanned by `_generate_incremental_summary`. -/
def significantKeywords : List String :=
  ["extracted_text", "key_points", "ui_components", "content_type"]

/-- One iteration of the significant-change loop: a change whose
space-joined path contains a keyword as a substring yields a description
(`add` / `remove` always; `update` only for a string pair growing by more
than 50 characters). -/
def describeChange (change : Op) : Option String :=
  if significantKeywords.any
      (fun kw => containsSub (pyJoin " " change.path) kw) then
    if change.op = "add" then
      some ("Added " ++ change.path.getLastD "" ++ ": " ++ pyStr change.new_value)
    else if change.op = "remove" then
      some ("Removed " ++ change.path.getLastD "" ++ ": " ++ pyStr change.old_value)
    else if change.op = "update" then
      match change.old_value, change.new_value with
      | .vstr o, .vstr n =>
          if (pyLen n : Int) - (pyLen o : Int) > 50 then
            some ("Updated " ++ change.path.getLastD "" ++ " with additional content")
          else none
      | _, _ => none
    else none
  else none

/-- Python `lst.insert(1, x)`. -/
def insertSecond (l : List String) (x : String) : List String :=
  match l with
  | [] => [x]
  | h :: t => h :: x :: t

/-- Splitter of Python `s.split('. ')`: non-overlapping, left to right,
keeping empty pieces.  `acc` holds the current piece reversed. -/
def splitDotSpace : List Char → List Char → List String
  | [], acc => [String.mk acc.reverse]
  | '.' :: ' ' :: cs, acc => String.mk acc.reverse :: splitDotSpace cs []
  | c :: cs, acc => splitDotSpace cs (c :: acc)

/-- Python `old_summary.split('. ')`. -/
def pySplitSummary (s : String) : List String :=
  splitDotSpace s.data []

/-- The un-capped combined summary: the first three significant-change
descriptions appended to (or interleaved after the first sentence of) the
old summary. -/
def combineSummary (oldSummary : String) (significant : List String) : String :=
  let changesText := pyJoin "; " (significant.take 3)
  if pyLen oldSummary < 200 then
    oldSummary ++ " [Updated: " ++ changesText ++ "]"
  else
    let sentences := pySplitSummary oldSummary
    if sentences.length > 1 then
      pyJoin ". " (insertSecond sentences ("Updated: " ++ changesText))
    else
      oldSummary ++ " [Updated: " ++ changesText ++ "]"

/-- `_generate_incremental_summary`: returns the old summary when there are
no changes or no significant ones; otherwise combines and hard-caps the
result at 500 characters, replacing the tail with `...` on truncation. -/
def genIncrementalSummary (oldSummary : String) (changes : List Op)
    (_newContent : Val) : String :=
  if changes.isEmpty then oldSummary
  else
    let significant := changes.filterMap describeChange
    if significant.isEmpty then oldSummary
    else
      let updatedSummary := combineSummary oldSummary significant
      if pyLen updatedSummary > 500 then pyTake updatedSummary 497 ++ "..."
      else updatedSummary

/-! ## Similarity store (`MemoryDatabase` in `src/core/memory_store.py`)

The SQLite tables are modelled as in-memory lists in insertion order (the
scan `SELECT id, perceptual_hash FROM memories` enumerates rows in that
order).  Timestamps and the audit cache table are not consulted by any
verified property and are omitted. -/

/-- A row of the `memories` table.  The `summary` column holds whatever
value `content.get('full_summary', '')` produced. -/
structure MemoryRecord where
  id : String
  content_hash : String
  perceptual_hash : String
  structured_content : Val
  summary : Val
  version : Int
  metadata : Val
  deriving Repr

/-- A row of the `memory_versions` table. -/
structure VersionEntry where
  memory_id : String
  version : Int
  diff_ops : List Op
  deriving Repr

structure Store where
  memories : List MemoryRecord
  versions : List VersionEntry
  deriving Repr

/-- The inner `hamming_distance` of `find_by_perceptual_hash`: position-wise
symbol mismatch count, `1000` when the lengths differ. -/
def hammingDistance (s1 s2 : String) : Nat :=
  if s1.length ≠ s2.length then 1000
  else ((s1.toList.zip s2.toList).filter (fun p => p.1 ≠ p.2)).length

/-- Python `d.get(k, default)` on a structured content (only ever called on
dicts in the modelled flows). -/
def docGet (v : Val) (k : String) (default : Val) : Val :=
  match v with
  | .vdict fields => (lookupField k fields).getD default
  | _ => default

/-- `d.get('full_summary', '')` coerced to a string.  A non-string summary
value would crash Python later (`len`); such documents are outside the
modelled scope. -/
def getStrD (v : Val) (k : String) (d : String) : String :=
  match docGet v k (.vstr d) with
  | .vstr s => s
  | _ => d

/-- `find_by_content_hash`: first row matching the hash (the column is
UNIQUE, so at most one exists in stores built through `add_memory`). -/
def findByContentHash (store : Store) (contentHash : String) : Option MemoryRecord :=
  store.memories.find? (fun r => r.content_hash == contentHash)

/-- `get_memory`: lookup by primary key. -/
def getMemory (store : Store) (memoryId : String) : Option MemoryRecord :=
  store.memories.find? (fun r => r.id == memoryId)

/-- The candidate scan of `find_by_perceptual_hash`: keep the first
candidate at each strictly smaller distance, among those with distance at
most the threshold; rows with a falsy (empty) stored hash are skipped.
`best` and `minDist` mirror `best_match = None` / `min_dist = 1000`. -/
def scanBest : List MemoryRecord → String → Nat → Option String → Nat → Option String
  | [], _, _, best, _ => best
  | r :: rest, target, threshold, best, minDist =>
      if r.perceptual_hash = "" then scanBest rest target threshold best minDist
      else
        let d := hammingDistance target r.perceptual_hash
        if d ≤ threshold ∧ d < minDist then scanBest rest target threshold (some r.id) d
        else scanBest rest target threshold best minDist

/-- `find_by_perceptual_hash`: nearest stored record under the threshold.
Note the final `if best_match:` is a Python truthiness test, so an empty
string id is treated like no match. -/
def findByPerceptualHash (store : Store) (pHash : String) (threshold : Nat) :
    Option MemoryRecord :=
  match scanBest store.memories pHash threshold none 1000 with
  | some bestId => if bestId = "" then none else getMemory store bestId
  | none => none

/-- `add_memory`: INSERT with `version` defaulting to 1. -/
def addMemory (store : Store) (memoryId : String) (content : Val)
    (fpContent fpPerceptual : String) (metadata : Val) : Store :=
  { store with
      memories := store.memories ++
        [{ id := memoryId, content_hash := fpContent,
           perceptual_hash := fpPerceptual, structured_content := content,
           summary := docGet content "full_summary" (.vstr ""), version := 1,
           metadata := metadata }] }

/-- `update_memory`: UPDATE the matching row (content, summary, version),
then read the bumped version back and append a `memory_versions` row. -/
def updateMemory (store : Store) (memoryId : String) (newContent : Val)
    (changes : List Op) (versionInc : Int) : Store :=
  let mems := store.memories.map (fun r =>
    if r.id == memoryId then
      { r with structured_content := newContent,
               summary := docGet newContent "full_summary" (.vstr ""),
               version := r.version + versionInc }
    else r)
  let currentVer := (((mems.find? (fun r => r.id == memoryId)).map
    (fun r => r.version)).getD 0)
  { memories := mems,
    versions := store.versions ++
      [{ memory_id := memoryId, version := currentVer, diff_ops := changes }] }

/-! ## Update orchestrator (`VisualMemoryEngine` in `src/core/engine.py`)

The vision extractor is external: its structured output enters the model as
the `visionContent` argument, and the generated UUID as `newId`.  The
audit-only `text_diffs` / `diff_log_entry` fields of
`update_memory_incrementally` are not consumed by the engine or the store
and are omitted. -/

/-- Result of `update_memory_incrementally`. -/
structure UpdateResult where
  updated : Bool
  memory_id : String
  changes : List Op
  new_content : Val
  new_summary : String
  version_increment : Int
  deriving Repr

/-- Outward-facing result dictionary of `process_screen` (absent keys are
modelled as `none` / `vnone`). -/
structure EngineResult where
  status : String
  memory_id : String
  summary : Val
  changes_count : Option Nat
  message : String
  deriving Repr

/-- Fields of a structured content (only ever taken on dicts in the
modelled flows). -/
def docFields : Val → List (String × Val)
  | .vdict fields => fields
  | _ => []

/-- `update_memory_incrementally`: diff, patch, regenerate the summary and
write it back under `full_summary`.  `apply_diff` may propagate an uncaught
`ValueError`. -/
def updateMemoryIncrementally (memoryId : String) (oldContent newContent : Val) :
    Except PyErr UpdateResult :=
  let changes := computeStructuredDiff (docFields oldContent) (docFields newContent)
  if changes.isEmpty then
    .ok { updated := false, memory_id := memoryId, changes := [],
          new_content := oldContent,
          new_summary := getStrD oldContent "full_summary" "",
          version_increment := 0 }
  else
    match applyDiff oldContent changes with
    | .error e => .error e
    | .ok updatedContent =>
        let oldSummary := getStrD oldContent "full_summary" ""
        let newSummary := genIncrementalSummary oldSummary changes updatedContent
        let updatedContent2 :=
          match updatedContent with
          | .vdict fields => Val.vdict (setOrAddField fields "full_summary" (.vstr newSummary))
          | other => other
        .ok { updated := true, memory_id := memoryId, changes := changes,
              new_content := updatedContent2, new_summary := newSummary,
              version_increment := 1 }

/-- `_perform_update`: run the incremental update and persist it when it
reported changes. -/
def performUpdate (store : Store) (memoryId : String) (oldMemory : MemoryRecord)
    (newContent : Val) : Except PyErr (EngineResult × Store) :=
  match updateMemoryIncrementally memoryId oldMemory.structured_content newContent with
  | .error e => .error e
  | .ok u =>
      if u.updated then
        .ok ({ status := "updated", memory_id := memoryId,
               summary := .vstr u.new_summary,
               changes_count := some u.changes.length,
               message := "Memory updated with semantic changes." },
             updateMemory store memoryId u.new_content u.changes u.version_increment)
      else
        .ok ({ status := "skipped", memory_id := memoryId, summary := .vnone,
               changes_count := none,
               message := "No semantic changes detected." }, store)

/-- `process_screen`: exact-hash hit returns `unchanged` untouched;
otherwise an explicit (truthy) `update_memory_id` or the auto-detected
perceptual match (threshold 4) routes to `_perform_update` when the target
record exists, and anything else creates a new record. -/
def processScreen (store : Store) (fpContent fpPerceptual : String)
    (visionContent : Val) (newId : String) (updateMemoryId : Option String)
    (metadata : Val) : Except PyErr (EngineResult × Store) :=
  match findByContentHash store fpContent with
  | some existing =>
      .ok ({ status := "unchanged", memory_id := existing.id,
             summary := existing.summary, changes_count := none,
             message := "Exact duplicate found. No processing needed." }, store)
  | none =>
      let explicitTarget : Option String :=
        match updateMemoryId with
        | some s => if s = "" then none else some s
        | none => none
      let target : Option String :=
        match explicitTarget with
        | some s => some s
        | none => (findByPerceptualHash store fpPerceptual 4).map (fun r => r.id)
      let updateTarget : Option (String × MemoryRecord) :=
        match target with
        | some tid =>
            if tid = "" then none
            else (getMemory store tid).map (fun old => (tid, old))
        | none => none
      match updateTarget with
      | some (tid, old) => performUpdate store tid old visionContent
      | none =>
          .ok ({ status := "created", memory_id := newId,
                 summary := docGet visionContent "full_summary" .vnone,
                 changes_count := none,
                 message := "New memory created successfully." },
               addMemory store newId visionContent fpContent fpPerceptual metadata)

/-! ## Spec-side definitions

These two definitions are written from the specification's words, for the
refinement-style claims that compare the code against the stated rule. -/

/-- The similarity function exactly as the specification words it:
identical values give `1.0`; two strings give the Jaccard similarity of
their lowercase whitespace-tokenized word sets (`0` if either side
tokenizes empty); two numbers give `1 - |a-b| / max(|a|,|b|)` with
both-zero giving `1.0` and exactly-one-zero giving `0.0`; any other
combination gives `0.0`. -/
def specSimilarity (a b : Val) : Rat :=
  if pyEq a b then 1
  else
    match a, b with
    | .vstr s, .vstr t =>
        let ws := lowerWords s
        let wt := lowerWords t
        if ws = [] ∨ wt = [] then 0
        else
          ((ws.dedup.filter (fun w => wt.contains w)).length : Rat) /
            (((ws ++ wt).dedup.length : Rat))
    | a', b' =>
        match specNum? a', specNum? b' with
        | some x, some y =>
            if x = 0 ∧ y = 0 then 1
            else if x = 0 ∨ y = 0 then 0
            else 1 - |x - y| / max |x| |y|
        | _, _ => 0
where
  /-- A "number" in the specification's sense. -/
  specNum? : Val → Option Rat
    | .vint n => some (n : Rat)
    | .vfloat q => some q
    | _ => none

/-- The `add` coalescing rule exactly as the specification words it: absent
key is set; a present sequence gets the value appended; a present scalar or
mapping is replaced by the two-element sequence `[old, new]`. -/
def specAddResult (fields : List (String × Val)) (k : String) (v : Val) :
    List (String × Val) :=
  match lookupField k fields with
  | none => fields ++ [(k, v)]
  | some (.vlist xs) => setField fields k (.vlist (xs ++ [v]))
  | some old => setField fields k (.vlist [old, v])

/-! ## Specification-side helpers used to state the theorems -/

/-- Resolve a path by descending through mapping fields only (the situation
in which a patch path "targets a mapping key"). -/
def resolveDicts : Val → List String → Option Val
  | doc, [] => some doc
  | .vdict fields, k :: p =>
      match lookupField k fields with
      | some v => resolveDicts v p
      | none => none
  | _, _ :: _ => none

/-- Replace the sub-document at a dict path (used to phrase what a patch
operation did to the surrounding document). -/
def updateAtDicts : Val → List String → Val → Val
  | _, [], v => v
  | .vdict fields, k :: p, v =>
      .vdict (setField fields k
        (updateAtDicts ((lookupField k fields).getD .vnone) p v))
  | doc, _ :: _, _ => doc

/-- A stored record that qualifies in the perceptual-hash scan: non-empty
stored hash, distance within the threshold, distance below the running
minimum `bound`. -/
def isCand (q : String) (threshold bound : Nat) (r : MemoryRecord) : Bool :=
  r.perceptual_hash != "" &&
    decide (hammingDistance q r.perceptual_hash ≤ threshold) &&
    decide (hammingDistance q r.perceptual_hash < bound)

/-- Minimum of a list of naturals (`none` on the empty list). -/
def natListMin : List Nat → Option Nat
  | [] => none
  | a :: l =>
      match natListMin l with
      | none => some a
      | some m => some (min a m)

/-- Re-rooting a diff operation one mapping level deeper (used to relate
the recursive diff at an extended path to the diff at the original path). -/
def prependKey (k : String) (operation : Op) : Op :=
  { operation with path := k :: operation.path }

/-! ## Basic lemmas about the association-list operations -/

theorem containsKey_of_lookupField {k : String} {fields : List (String × Val)} {v : Val}
    (h : lookupField k fields = some v) : containsKey k fields = true := by
  induction fields with
  | nil => simp [lookupField] at h
  | cons kv rest ih =>
      obtain ⟨k', v'⟩ := kv
      by_cases hk : k' = k
      · simp [containsKey, hk]
      · simp [lookupField, hk] at h
        simp [containsKey, hk, ih h]

theorem lookupField_eq_none_of_not_containsKey {k : String} {fields : List (String × Val)}
    (h : containsKey k fields = false) : lookupField k fields = none := by
  induction fields with
  | nil => rfl
  | cons kv rest ih =>
      obtain ⟨k', v'⟩ := kv
      simp [containsKey] at h
      simp [lookupField, h.1, ih h.2]

/-! ## Claim C6: error policy of `apply_diff` -/

/-- C6 (amended): `apply_diff` catches and skips exactly the structural
errors `KeyError` / `IndexError` / `TypeError` — any error escaping
`apply_diff` is a `ValueError` (non-numeric index into a sequence), and a
caught operation is skipped with the remaining operations still applied. -/
theorem c6_applyDiff_error_policy :
    (∀ (ops : List Op) (doc : Val) (e : PyErr),
        applyDiff doc ops = .error e → e = .valueError) ∧
    (∀ (doc : Val) (operation : Op) (rest : List Op) (e : PyErr),
        applyOne doc operation = .error e → e ≠ .valueError →
        applyDiff doc (operation :: rest) = applyDiff doc rest) := by
  constructor
  · intro ops
    induction ops with
    | nil => intro doc e h; simp [applyDiff] at h
    | cons operation rest ih =>
        intro doc e h
        rw [applyDiff] at h
        cases h' : applyOne doc operation with
        | ok newDoc => rw [h'] at h; exact ih newDoc e h
        | error e' =>
            cases e' <;> rw [h'] at h
            · exact ih doc e h
            · exact ih doc e h
            · exact ih doc e h
            · cases h; rfl
  · intro doc operation rest e h hne
    rw [applyDiff, h]
    cases e with
    | valueError => exact absurd rfl hne
    | keyError => rfl
    | indexError => rfl
    | typeError => rfl

/-- C6 witness: a structural `TypeError` (path through a scalar) is caught
and the operation skipped. -/
theorem c6_witness :
    applyOne (.vdict [("a", .vint 1)])
        { op := "update", path := ["a", "b", "c"], new_value := .vint 2 } =
      .error .typeError ∧
    applyDiff (.vdict [("a", .vint 1)])
        [{ op := "update", path := ["a", "b", "c"], new_value := .vint 2 }] =
      applyDiff (.vdict [("a", .vint 1)]) [] :=
  ⟨rfl, c6_applyDiff_error_policy.2 _ _ _ _ rfl (by decide)⟩

/-- C6 counterexample: a `remove` whose final segment addresses a sequence
with a non-numeric index raises `ValueError`, which `apply_diff` does *not*
catch — refuting "apply_diff never raises". -/
theorem c6_counterexample :
    applyDiff (.vdict [("k", .vlist [.vint 1])])
        [{ op := "remove", path := ["k", "x"] }] = .error .valueError := rfl

/-! ## Python equality on primitives -/

theorem pyEq_symm_prim (y v : Val) (hy : isPrimitive y = true) :
    pyEq y v = pyEq v y := by
  cases y <;> cases v <;>
    simp_all [pyEq, isPrimitive, Val.numVal?, beq_iff_eq, eq_comm]

theorem pyEq_congr_prim (y v x : Val) (hy : isPrimitive y = true)
    (h : pyEq y v = true) : pyEq y x = pyEq v x := by
  cases y <;> cases v <;> cases x <;>
    simp_all [pyEq, isPrimitive, Val.numVal?, beq_iff_eq]

theorem memPy_congr (y v : Val) (xs : List Val) (hy : isPrimitive y = true)
    (h : pyEq y v = true) : memPy y xs = memPy v xs := by
  induction xs with
  | nil => rfl
  | cons x rest ih =>
      simp only [memPy, List.any_cons] at *
      rw [pyEq_congr_prim y v x hy h, ih]

/-- Counting `==`-matches of `v` among the elements of `ys` that have no
match in `xs`: zero when `v` itself matches into `xs`, and the plain match
count of `v` in `ys` otherwise. -/
theorem countP_pyEq_not_mem (v : Val) (xs ys : List Val)
    (hy : ys.all isPrimitive = true) :
    ys.countP (fun y => pyEq y v && !memPy y xs) =
      if memPy v xs then 0 else ys.countP (fun y => pyEq v y) := by
  rw [List.all_eq_true] at hy
  by_cases hv : memPy v xs = true
  · rw [if_pos hv]
    apply List.countP_eq_zero.mpr
    intro y hyy
    simp only [Bool.and_eq_true, Bool.not_eq_true']
    rintro ⟨h1, h2⟩
    rw [memPy_congr y v xs (hy y hyy) h1, hv] at h2
    simp at h2
  · rw [if_neg hv]
    rw [Bool.not_eq_true] at hv
    apply List.countP_congr
    intro y hyy
    rw [← pyEq_symm_prim y v (hy y hyy)]
    cases h1 : pyEq y v with
    | true =>
        rw [memPy_congr y v xs (hy y hyy) h1, hv]
        simp
    | false => simp

/-! ## Claim C3: scalar-list diffing is by membership, per occurrence -/

/-- C3 (amended): for primitive lists the diff engine works by membership,
not counts: every *occurrence* of a new-list value with no `==`-match in
the old list emits one `add`, every occurrence of an old-list value with no
match in the new list emits one `remove`, all at the sequence's own path;
values present in both lists emit nothing even when their multiplicities
differ, so `[1,2,2,3]` vs `[2,3,4]` gives exactly `add 4` and `remove 1`. -/
theorem c3_compareLists_membership (xs ys : List Val) (p : List String)
    (hx : xs.all isPrimitive = true) (hy : ys.all isPrimitive = true) :
    (∀ op ∈ compareLists xs ys p, op.path = p) ∧
    (∀ v : Val,
      (compareLists xs ys p).countP
          (fun o => o.op == "add" && pyEq o.new_value v) =
        if memPy v xs then 0 else ys.countP (fun y => pyEq v y)) ∧
    (∀ v : Val,
      (compareLists xs ys p).countP
          (fun o => o.op == "remove" && pyEq o.old_value v) =
        if memPy v ys then 0 else xs.countP (fun x => pyEq v x)) ∧
    compareLists [.vint 1, .vint 2, .vint 2, .vint 3]
        [.vint 2, .vint 3, .vint 4] ["items"] =
      [{ op := "add", path := ["items"], new_value := .vint 4 },
       { op := "remove", path := ["items"], old_value := .vint 1 }] := by
  have hcond : (xs.all isPrimitive = true ∧ ys.all isPrimitive = true) := ⟨hx, hy⟩
  refine ⟨?_, ?_, ?_, rfl⟩
  · intro op hop
    rw [compareLists, if_pos hcond] at hop
    rcases List.mem_append.mp hop with h | h <;>
      · obtain ⟨a, _, rfl⟩ := List.mem_map.mp h
        rfl
  · intro v
    rw [compareLists, if_pos hcond, List.countP_append]
    have h2 : List.countP (fun o : Op => o.op == "add" && pyEq o.new_value v)
        ((List.filter (fun x => !memPy x ys) xs).map
          (fun item => ({ op := "remove", path := p, old_value := item } : Op))) = 0 := by
      rw [List.countP_map]
      apply List.countP_eq_zero.mpr
      intro a _
      simp [Function.comp]
    have h1 : List.countP (fun o : Op => o.op == "add" && pyEq o.new_value v)
        ((List.filter (fun x => !memPy x xs) ys).map
          (fun item => ({ op := "add", path := p, new_value := item } : Op))) =
        List.countP (fun y => pyEq y v && !memPy y xs) ys := by
      rw [List.countP_map, List.countP_filter]
      apply List.countP_congr
      intro y _
      simp [Function.comp]
    rw [h1, h2, Nat.add_zero]
    exact countP_pyEq_not_mem v xs ys hy
  · intro v
    rw [compareLists, if_pos hcond, List.countP_append]
    have h2 : List.countP (fun o : Op => o.op == "remove" && pyEq o.old_value v)
        ((List.filter (fun x => !memPy x xs) ys).map
          (fun item => ({ op := "add", path := p, new_value := item } : Op))) = 0 := by
      rw [List.countP_map]
      apply List.countP_eq_zero.mpr
      intro a _
      simp [Function.comp]
    have h1 : List.countP (fun o : Op => o.op == "remove" && pyEq o.old_value v)
        ((List.filter (fun x => !memPy x ys) xs).map
          (fun item => ({ op := "remove", path := p, old_value := item } : Op))) =
        List.countP (fun y => pyEq y v && !memPy y ys) xs := by
      rw [List.countP_map, List.countP_filter]
      apply List.countP_congr
      intro y _
      simp [Function.comp]
    rw [h1, h2, Nat.zero_add]
    exact countP_pyEq_not_mem v ys xs hx

/-- C3 witness: instantiation at the specification's own example. -/
theorem c3_witness :
    compareLists [.vint 1, .vint 2, .vint 2, .vint 3]
        [.vint 2, .vint 3, .vint 4] ["items"] =
      [{ op := "add", path := ["items"], new_value := .vint 4 },
       { op := "remove", path := ["items"], old_value := .vint 1 }] :=
  (c3_compareLists_membership [.vint 1, .vint 2, .vint 2, .vint 3]
    [.vint 2, .vint 3, .vint 4] ["items"] rfl rfl).2.2.2

/-- C3 counterexample: a duplicated new-only value emits one `add` per
occurrence (`[] → [4,4]` gives two adds of `4`), refuting the claim that a
value present in the new list but not the old emits exactly one `add` with
duplicates collapsing. -/
theorem c3_counterexample :
    compareLists [] [.vint 4, .vint 4] ["k"] =
      [{ op := "add", path := ["k"], new_value := .vint 4 },
       { op := "add", path := ["k"], new_value := .vint 4 }] := rfl

/-! ## Claim C4: update confidence and the similarity function -/

/-- On two scalars of the same Python type, `_compute_similarity` computes
exactly the similarity function as the specification words it. -/
theorem computeSimilarity_eq_spec (a b : Val) (htag : a.typeTag = b.typeTag)
    (hs : a.typeTag ≠ 5 ∧ a.typeTag ≠ 6) :
    computeSimilarity a b = specSimilarity a b := by
  cases a <;> cases b <;> simp_all [Val.typeTag]
  case vnone => simp [computeSimilarity, specSimilarity, pyEq]
  case vbool x y =>
    cases x <;> cases y <;>
      simp [computeSimilarity, specSimilarity, pyEq, Val.numVal?,
        specSimilarity.specNum?, beq_iff_eq]
  case vint m n => rfl
  case vfloat q r => rfl
  case vstr s t =>
    by_cases hse : s = ""
    · subst hse
      simp [computeSimilarity, specSimilarity, lowerWords, pyLower, wsTokensAux]
    · by_cases hte : t = ""
      · subst hte
        by_cases hpe : pyEq (Val.vstr s) (Val.vstr "") = true
        · simp [computeSimilarity, specSimilarity, hpe]
        · rw [Bool.not_eq_true] at hpe
          simp [computeSimilarity, specSimilarity, hpe, hse, lowerWords,
            pyLower, wsTokensAux]
      · simp [computeSimilarity, specSimilarity, hse, hte, setCard]

/-- C4 (amended): for two *differing scalars of the same Python type* the
emitted `update` carries confidence equal to the specified similarity
function (and the code similarity equals the spec similarity there); for
scalars of different Python types (e.g. `int 1` vs `float 2.5`) the
type-mismatch rule emits confidence `1.0` instead.  The Jaccard example
`similarity("a b c", "a b d") = 0.5` holds. -/
theorem c4_update_confidence (a b : Val) (p : List String)
    (htag : a.typeTag = b.typeTag) (hs : a.typeTag ≠ 5 ∧ a.typeTag ≠ 6)
    (hne : pyEq a b = false) :
    compareValues a b p =
      [{ op := "update", path := p, old_value := a, new_value := b,
         confidence := specSimilarity a b }] ∧
    computeSimilarity a b = specSimilarity a b ∧
    specSimilarity (.vstr "a b c") (.vstr "a b d") = 1 / 2 := by
  have hsim := computeSimilarity_eq_spec a b htag hs
  refine ⟨?_, hsim, ?_⟩
  · cases a <;> cases b <;>
      simp_all [compareValues, Val.typeTag, hne, hsim]
  · simp [specSimilarity, pyEq, lowerWords, pyLower, wsTokensAux, beq_iff_eq]
    norm_num

/-- C4 witness: the amended statement applied at the specification's
Jaccard example. -/
theorem c4_witness :
    compareValues (.vstr "a b c") (.vstr "a b d") ["f"] =
      [{ op := "update", path := ["f"], old_value := .vstr "a b c",
         new_value := .vstr "a b d",
         confidence := specSimilarity (.vstr "a b c") (.vstr "a b d") }] ∧
    specSimilarity (.vstr "a b c") (.vstr "a b d") = 1 / 2 := by
  have h := c4_update_confidence (.vstr "a b c") (.vstr "a b d") ["f"] rfl
    (by decide) (by decide)
  exact ⟨h.1, h.2.2⟩

/-- C4 counterexample: for the differing numbers `int 1` and `float 2.5`
the emitted update has confidence `1.0` (type-mismatch rule), while the
claim's similarity function gives `1 - |1 - 2.5| / 2.5 = 0.4` — so the
confidence does *not* equal the similarity function on every differing
scalar pair. -/
theorem c4_counterexample :
    compareValues (.vint 1) (.vfloat (5 / 2)) ["k"] =
      [{ op := "update", path := ["k"], old_value := .vint 1,
         new_value := .vfloat (5 / 2), confidence := 1 }] ∧
    specSimilarity (.vint 1) (.vfloat (5 / 2)) = 2 / 5 ∧
    (1 : Rat) ≠ 2 / 5 := by
  refine ⟨rfl, ?_, by norm_num⟩
  simp [specSimilarity, pyEq, Val.numVal?, specSimilarity.specNum?, beq_iff_eq]
  rw [if_neg (show ¬((1 : Rat) = 5 / 2) by norm_num)]
  norm_num [abs, max_def]

/-! ## Claim C5: `add` coalesces at a mapping key -/

/-- An `add` whose path resolves through mappings rewrites exactly the
targeted field, following the coalescing rule. -/
theorem addToNested_resolve (k : String) (v : Val) (p : List String) :
    ∀ (doc : Val) (fields : List (String × Val)),
      resolveDicts doc p = some (.vdict fields) →
      addToNested doc (p ++ [k]) v =
        .ok (updateAtDicts doc p (.vdict (specAddResult fields k v))) := by
  induction p with
  | nil =>
      intro doc fields h
      simp only [resolveDicts, Option.some_inj] at h
      subst h
      simp only [List.nil_append, updateAtDicts]
      cases hl : lookupField k fields with
      | none => simp [addToNested, specAddResult, hl]
      | some w => cases w <;> simp [addToNested, specAddResult, hl]
  | cons key p ih =>
      intro doc fields h
      match doc with
      | .vnone | .vbool _ | .vint _ | .vfloat _ | .vstr _ | .vlist _ =>
          simp [resolveDicts] at h
      | .vdict f0 =>
          rw [resolveDicts] at h
          cases hl : lookupField key f0 with
          | none => rw [hl] at h; simp at h
          | some v0 =>
              rw [hl] at h
              have hrec := ih v0 fields h
              rcases hq : p ++ [k] with _ | ⟨q, qs⟩
              · simp at hq
              · rw [hq] at hrec
                show addToNested (.vdict f0) (key :: (p ++ [k])) v =
                  .ok (updateAtDicts (.vdict f0) (key :: p)
                    (.vdict (specAddResult fields k v)))
                rw [hq]
                simp only [addToNested, hl, Option.getD_some, hrec,
                  updateAtDicts]
                rw [setOrAddField, if_pos (containsKey_of_lookupField hl)]

/-- C5: applying one `add` targeting a mapping key (any base document, any
path resolving through mappings to that dict) sets an absent key, appends
to a present sequence value, and coalesces a present scalar/mapping value
into the two-element sequence `[old, new]` — stated via the spec-side
`specAddResult`. -/
theorem c5_apply_add_coalesce (doc : Val) (p : List String)
    (fields : List (String × Val)) (k : String) (v : Val)
    (h : resolveDicts doc p = some (.vdict fields)) :
    applyDiff doc [{ op := "add", path := p ++ [k], new_value := v }] =
      .ok (updateAtDicts doc p (.vdict (specAddResult fields k v))) := by
  have ha := addToNested_resolve k v p doc fields h
  simp [applyDiff, applyOne, ha]

/-- C5 witness: the specification's coalescing example
`{"k": "x"} + add k="y" → {"k": ["x","y"]}`. -/
theorem c5_witness :
    applyDiff (.vdict [("k", .vstr "x")])
        [{ op := "add", path := ["k"], new_value := .vstr "y" }] =
      .ok (.vdict [("k", .vlist [.vstr "x", .vstr "y"])]) :=
  (c5_apply_add_coalesce (.vdict [("k", .vstr "x")]) [] [("k", .vstr "x")]
    "k" (.vstr "y") rfl).trans (by rfl)

/-! ## Claim C9: scalar-list `remove` deletes the whole mapping entry -/

/-- C9: the scalar-list diff emits `remove` operations at the *list's own
path* (not at an element index), and applying such a `remove` to a document
holding a list under that key deletes the entire mapping entry — the whole
list — not just the listed element. -/
theorem c9_remove_deletes_entry :
    (∀ (fields : List (String × Val)) (k : String) (xs : List Val) (x : Val),
        lookupField k fields = some (.vlist xs) →
        applyDiff (.vdict fields)
            [{ op := "remove", path := [k], old_value := x }] =
          .ok (.vdict (eraseField fields k))) ∧
    (∀ (xs ys : List Val) (p : List String) (x : Val),
        xs.all isPrimitive = true → ys.all isPrimitive = true →
        x ∈ xs → memPy x ys = false →
        ({ op := "remove", path := p, old_value := x } : Op) ∈
          compareLists xs ys p) := by
  constructor
  · intro fields k xs x h
    simp [applyDiff, applyOne, removeFromNested, containsKey_of_lookupField h]
  · intro xs ys p x hx hy hmem hnot
    rw [compareLists, if_pos ⟨hx, hy⟩]
    apply List.mem_append.mpr
    right
    apply List.mem_map.mpr
    refine ⟨x, ?_, rfl⟩
    apply List.mem_filter.mpr
    exact ⟨hmem, by simp [hnot]⟩

/-- C9 witness: removing the listed element `1` from
`{"tags": [1, 2]}` deletes the whole `tags` entry. -/
theorem c9_witness :
    applyDiff (.vdict [("tags", .vlist [.vint 1, .vint 2])])
        [{ op := "remove", path := ["tags"], old_value := .vint 1 }] =
      .ok (.vdict []) ∧
    ({ op := "remove", path := ["tags"], old_value := .vint 1 } : Op) ∈
      compareLists [.vint 1, .vint 2] [.vint 2] ["tags"] := by
  constructor
  · have h := c9_remove_deletes_entry.1 [("tags", .vlist [.vint 1, .vint 2])]
      "tags" [.vint 1, .vint 2] (.vint 1) rfl
    exact h.trans (by rfl)
  · apply c9_remove_deletes_entry.2 [.vint 1, .vint 2] [.vint 2] ["tags"]
      (.vint 1) rfl rfl (by simp)
    simp [memPy, pyEq, Val.numVal?, beq_iff_eq]

/-! ## Claim C7: exact-duplicate submissions leave the store untouched -/

/-- C7: when the content hash already exists in the store, `process_screen`
returns status `unchanged` with the matched record's id and summary, and
returns the store completely unmodified (no record created or updated, no
version bump, no version-history entry). -/
theorem c7_unchanged_on_exact_match (store : Store) (fpc fpp : String)
    (vision : Val) (newId : String) (updId : Option String) (meta : Val)
    (r : MemoryRecord) (h : findByContentHash store fpc = some r) :
    processScreen store fpc fpp vision newId updId meta =
      .ok ({ status := "unchanged", memory_id := r.id, summary := r.summary,
             changes_count := none,
             message := "Exact duplicate found. No processing needed." },
           store) := by
  simp [processScreen, h]

/-- C7 witness: a concrete store re-receiving the stored content hash. -/
theorem c7_witness :
    processScreen
        { memories := [{ id := "m1", content_hash := "c1",
                         perceptual_hash := "p1",
                         structured_content := .vdict [],
                         summary := .vstr "a summary", version := 1,
                         metadata := .vnone }],
          versions := [] }
        "c1" "p1" (.vdict []) "new-id" none .vnone =
      .ok ({ status := "unchanged", memory_id := "m1",
             summary := .vstr "a summary", changes_count := none,
             message := "Exact duplicate found. No processing needed." },
           { memories := [{ id := "m1", content_hash := "c1",
                            perceptual_hash := "p1",
                            structured_content := .vdict [],
                            summary := .vstr "a summary", version := 1,
                            metadata := .vnone }],
             versions := [] }) :=
  c7_unchanged_on_exact_match
    { memories := [{ id := "m1", content_hash := "c1", perceptual_hash := "p1",
                     structured_content := .vdict [],
                     summary := .vstr "a summary", version := 1,
                     metadata := .vnone }],
      versions := [] }
    "c1" "p1" (.vdict []) "new-id" none .vnone
    { id := "m1", content_hash := "c1", perceptual_hash := "p1",
      structured_content := .vdict [], summary := .vstr "a summary",
      version := 1, metadata := .vnone }
    rfl

/-! ## Claim C8: incremental-summary cap and no-significant-change path -/

/-- C8 (amended): when at least one change yields a significant-change
description, the regenerated summary is capped at 500 characters, the tail
being replaced by an ellipsis marker exactly when the combined summary
exceeded 500; when no change touches a significant keyword (and in
particular when no description is produced), the prior summary is returned
unchanged — *whatever its length*, so the 500 cap does not apply on that
path. -/
theorem c8_summary_cap (oldSummary : String) (changes : List Op)
    (newContent : Val) :
    (genIncrementalSummary oldSummary changes newContent = oldSummary ∨
      pyLen (genIncrementalSummary oldSummary changes newContent) ≤ 500) ∧
    ((∀ c ∈ changes, significantKeywords.any
        (fun kw => containsSub (pyJoin " " c.path) kw) = false) →
      genIncrementalSummary oldSummary changes newContent = oldSummary) ∧
    (changes.filterMap describeChange ≠ [] →
      pyLen (genIncrementalSummary oldSummary changes newContent) ≤ 500 ∧
      (500 < pyLen (combineSummary oldSummary (changes.filterMap describeChange)) →
        genIncrementalSummary oldSummary changes newContent =
          pyTake (combineSummary oldSummary (changes.filterMap describeChange)) 497
            ++ "...")) := by
  have hcap : changes.filterMap describeChange ≠ [] →
      pyLen (genIncrementalSummary oldSummary changes newContent) ≤ 500 ∧
      (500 < pyLen (combineSummary oldSummary (changes.filterMap describeChange)) →
        genIncrementalSummary oldSummary changes newContent =
          pyTake (combineSummary oldSummary (changes.filterMap describeChange)) 497
            ++ "...") := by
    intro hsig
    have hchanges : changes ≠ [] := by
      intro hc
      rw [hc] at hsig
      exact hsig rfl
    rw [genIncrementalSummary, if_neg (by simp [List.isEmpty_iff, hchanges]),
      if_neg (by simp [List.isEmpty_iff, hsig])]
    by_cases hlen :
        500 < pyLen (combineSummary oldSummary (changes.filterMap describeChange))
    · rw [if_pos hlen]
      constructor
      · show pyLen _ ≤ 500
        rw [pyLen, String.data_append]
        rw [List.length_append]
        have h1 : (pyTake (combineSummary oldSummary
            (changes.filterMap describeChange)) 497).data.length ≤ 497 := by
          rw [pyTake]
          simp
        have h2 : ("...").data.length = 3 := rfl
        omega
      · intro _; rfl
    · rw [if_neg hlen]
      exact ⟨Nat.le_of_not_lt hlen, fun h => absurd h hlen⟩
  refine ⟨?_, ?_, hcap⟩
  · by_cases hsig : changes.filterMap describeChange = []
    · left
      rw [genIncrementalSummary]
      by_cases hc : changes.isEmpty
      · rw [if_pos hc]
      · rw [if_neg hc, if_pos (by simp [List.isEmpty_iff, hsig])]
    · right
      exact (hcap hsig).1
  · intro hnone
    have hsig : changes.filterMap describeChange = [] := by
      apply List.filterMap_eq_nil_iff.mpr
      intro c hc
      rw [describeChange, if_neg (by simp [hnone c hc])]
    rw [genIncrementalSummary]
    by_cases hc : changes.isEmpty
    · rw [if_pos hc]
    · rw [if_neg hc, if_pos (by simp [List.isEmpty_iff, hsig])]

/-- C8 witness: a significant `add` on a 501-character base summary is
capped to exactly 500 characters ending in the ellipsis marker. -/
theorem c8_witness :
    pyLen (genIncrementalSummary (String.mk (List.replicate 501 'a'))
        [{ op := "add", path := ["key_points"], new_value := .vstr "hi" }]
        (.vdict [])) ≤ 500 ∧
    genIncrementalSummary (String.mk (List.replicate 501 'a'))
        [{ op := "add", path := ["key_points"], new_value := .vstr "hi" }]
        (.vdict []) =
      pyTake (combineSummary (String.mk (List.replicate 501 'a'))
        ([{ op := "add", path := ["key_points"], new_value := .vstr "hi" }].filterMap
          describeChange)) 497 ++ "..." := by
  have h := (c8_summary_cap (String.mk (List.replicate 501 'a'))
    [{ op := "add", path := ["key_points"], new_value := .vstr "hi" }]
    (.vdict [])).2.2 (by decide)
  exact ⟨h.1, h.2 (by decide)⟩

/-- C8 counterexample: with no significant change, a 501-character prior
summary is returned unchanged, exceeding the claimed universal 500-character
bound. -/
theorem c8_counterexample :
    genIncrementalSummary (String.mk (List.replicate 501 'a')) [] (.vdict []) =
      String.mk (List.replicate 501 'a') ∧
    500 < pyLen (genIncrementalSummary (String.mk (List.replicate 501 'a')) []
      (.vdict [])) := by
  constructor
  · simp [genIncrementalSummary]
  · simp [genIncrementalSummary, pyLen]

/-! ## Lemmas on `natListMin` and the perceptual scan -/

theorem natListMin_eq_none {l : List Nat} : natListMin l = none ↔ l = [] := by
  cases l with
  | nil => simp [natListMin]
  | cons a t =>
      simp only [natListMin]
      cases natListMin t <;> simp

theorem natListMin_mem : ∀ {l : List Nat} {m : Nat}, natListMin l = some m → m ∈ l := by
  intro l
  induction l with
  | nil => intro m h; simp [natListMin] at h
  | cons a t ih =>
      intro m h
      rw [natListMin] at h
      cases ht : natListMin t with
      | none => simp only [ht, Option.some_inj] at h; subst h; exact List.mem_cons_self a t
      | some m' =>
          simp only [ht, Option.some_inj] at h
          subst h
          rcases Nat.le_total a m' with hle | hle
          · rw [min_eq_left hle]; exact List.mem_cons_self a t
          · rw [min_eq_right hle]; exact List.mem_cons_of_mem a (ih ht)

theorem natListMin_le : ∀ {l : List Nat} {m : Nat}, natListMin l = some m →
    ∀ x ∈ l, m ≤ x := by
  intro l
  induction l with
  | nil => intro m h; simp [natListMin] at h
  | cons a t ih =>
      intro m h x hx
      rw [natListMin] at h
      cases ht : natListMin t with
      | none =>
          simp only [ht, Option.some_inj] at h
          subst h
          rcases List.mem_cons.mp hx with rfl | hxt
          · exact Nat.le_refl x
          · exact absurd (natListMin_eq_none.mp ht ▸ hxt) (List.not_mem_nil x)
      | some m' =>
          simp only [ht, Option.some_inj] at h
          subst h
          rcases List.mem_cons.mp hx with rfl | hxt
          · exact min_le_left _ _
          · exact Nat.le_trans (min_le_right _ _) (ih ht x hxt)

theorem natListMin_eq_of_mem_le {l : List Nat} {m : Nat} (hm : m ∈ l)
    (hle : ∀ x ∈ l, m ≤ x) : natListMin l = some m := by
  induction l with
  | nil => exact absurd hm (List.not_mem_nil m)
  | cons a t ih =>
      rw [natListMin]
      rcases List.mem_cons.mp hm with rfl | hmt
      · cases ht : natListMin t with
        | none => rfl
        | some m' =>
            have h1 : m ≤ m' := hle m' (List.mem_cons_of_mem _ (natListMin_mem ht))
            simp only [min_eq_left h1]
      · have ht : natListMin t = some m :=
          ih hmt (fun x hx => hle x (List.mem_cons_of_mem a hx))
        have h1 : m ≤ a := hle a (List.mem_cons_self a t)
        simp only [ht, min_eq_right h1]

/-- Full characterization of the candidate scan of
`find_by_perceptual_hash`: it returns the id of the *first* record whose
distance attains the minimum over all qualifying candidates (non-empty
stored hash, distance within the threshold and below the running bound),
or the incoming `best` when no candidate qualifies. -/
theorem scanBest_eq (q : String) (threshold : Nat) :
    ∀ (records : List MemoryRecord) (best : Option String) (bound : Nat),
      scanBest records q threshold best bound =
        match natListMin ((records.filter (isCand q threshold bound)).map
            (fun r => hammingDistance q r.perceptual_hash)) with
        | none => best
        | some m =>
            (records.find? (fun r => r.perceptual_hash != "" &&
              decide (hammingDistance q r.perceptual_hash = m))).map
              (fun r => r.id) := by
  intro records
  induction records with
  | nil => intro best bound; simp [scanBest, natListMin]
  | cons r rest ih =>
      intro best bound
      by_cases hph : r.perceptual_hash = ""
      · have hfilter : List.filter (isCand q threshold bound) (r :: rest) =
            List.filter (isCand q threshold bound) rest :=
          List.filter_cons_of_neg (by simp [isCand, hph])
        rw [scanBest, if_pos hph, ih, hfilter]
        cases hmin : natListMin ((rest.filter (isCand q threshold bound)).map
            (fun r => hammingDistance q r.perceptual_hash)) with
        | none => simp only [hmin]
        | some m =>
            simp only [hmin]
            rw [List.find?_cons_of_neg _ (by simp [hph])]
      · by_cases hqual : hammingDistance q r.perceptual_hash ≤ threshold ∧
            hammingDistance q r.perceptual_hash < bound
        · have hfilter : List.filter (isCand q threshold bound) (r :: rest) =
              r :: List.filter (isCand q threshold bound) rest :=
            List.filter_cons_of_pos (by
              simp [isCand, hph, hqual.1, hqual.2])
          rw [scanBest, if_neg hph, if_pos hqual, ih, hfilter, List.map_cons]
          cases hmin : natListMin ((rest.filter
              (isCand q threshold (hammingDistance q r.perceptual_hash))).map
              (fun r => hammingDistance q r.perceptual_hash)) with
          | none =>
              have hempty : rest.filter
                  (isCand q threshold (hammingDistance q r.perceptual_hash)) = [] := by
                have h0 := natListMin_eq_none.mp hmin
                exact List.map_eq_nil_iff.mp h0
              have hminr : natListMin (hammingDistance q r.perceptual_hash ::
                  (rest.filter (isCand q threshold bound)).map
                    (fun r => hammingDistance q r.perceptual_hash)) =
                  some (hammingDistance q r.perceptual_hash) := by
                apply natListMin_eq_of_mem_le (List.mem_cons_self _ _)
                intro x hx
                rcases List.mem_cons.mp hx with rfl | hx'
                · exact Nat.le_refl _
                · rcases List.mem_map.mp hx' with ⟨r', hr', rfl⟩
                  rcases List.mem_filter.mp hr' with ⟨hr'mem, hr'cand⟩
                  simp only [isCand, Bool.and_eq_true, decide_eq_true_eq] at hr'cand
                  by_contra hlt
                  have hlt' : hammingDistance q r'.perceptual_hash <
                      hammingDistance q r.perceptual_hash := Nat.lt_of_not_le hlt
                  have hin : r' ∈ rest.filter
                      (isCand q threshold (hammingDistance q r.perceptual_hash)) := by
                    apply List.mem_filter.mpr
                    refine ⟨hr'mem, ?_⟩
                    simp only [isCand, Bool.and_eq_true, decide_eq_true_eq]
                    exact ⟨⟨hr'cand.1.1, hr'cand.1.2⟩, hlt'⟩
                  rw [hempty] at hin
                  exact absurd hin (List.not_mem_nil r')
              simp only [hmin, hminr]
              rw [List.find?_cons_of_pos _ (by simp [hph])]
              rfl
          | some m =>
              have hmmem := natListMin_mem hmin
              rcases List.mem_map.mp hmmem with ⟨r', hr', hr'd⟩
              rcases List.mem_filter.mp hr' with ⟨hr'mem, hr'cand⟩
              simp only [isCand, Bool.and_eq_true, decide_eq_true_eq] at hr'cand
              have hmd : m < hammingDistance q r.perceptual_hash :=
                hr'd ▸ hr'cand.2
              have hmem2 : m ∈ (rest.filter (isCand q threshold bound)).map
                  (fun r => hammingDistance q r.perceptual_hash) := by
                apply List.mem_map.mpr
                refine ⟨r', ?_, hr'd⟩
                apply List.mem_filter.mpr
                refine ⟨hr'mem, ?_⟩
                simp only [isCand, Bool.and_eq_true, decide_eq_true_eq]
                refine ⟨⟨hr'cand.1.1, hr'cand.1.2⟩, ?_⟩
                exact Nat.lt_trans hr'cand.2 hqual.2
              have hle2 : ∀ x ∈ (rest.filter (isCand q threshold bound)).map
                  (fun r => hammingDistance q r.perceptual_hash), m ≤ x := by
                intro x hx
                rcases List.mem_map.mp hx with ⟨r'', hr'', rfl⟩
                rcases List.mem_filter.mp hr'' with ⟨hr''mem, hr''cand⟩
                simp only [isCand, Bool.and_eq_true, decide_eq_true_eq] at hr''cand
                by_cases hxd : hammingDistance q r''.perceptual_hash <
                    hammingDistance q r.perceptual_hash
                · apply natListMin_le hmin
                  apply List.mem_map.mpr
                  refine ⟨r'', ?_, rfl⟩
                  apply List.mem_filter.mpr
                  refine ⟨hr''mem, ?_⟩
                  simp only [isCand, Bool.and_eq_true, decide_eq_true_eq]
                  exact ⟨⟨hr''cand.1.1, hr''cand.1.2⟩, hxd⟩
                · exact Nat.le_trans (Nat.le_of_lt hmd) (Nat.le_of_not_lt hxd)
              have hthis : natListMin (hammingDistance q r.perceptual_hash ::
                  (rest.filter (isCand q threshold bound)).map
                    (fun r => hammingDistance q r.perceptual_hash)) = some m := by
                apply natListMin_eq_of_mem_le (List.mem_cons_of_mem _ hmem2)
                intro x hx
                rcases List.mem_cons.mp hx with rfl | hx'
                · exact Nat.le_of_lt hmd
                · exact hle2 x hx'
              simp only [hmin, hthis]
              rw [List.find?_cons_of_neg _ (by
                simp only [Bool.and_eq_true, bne_iff_ne, ne_eq,
                  decide_eq_true_eq, not_and]
                intro _ hdm
                exact absurd (hdm ▸ hmd) (Nat.lt_irrefl m))]
        · have hfilter : List.filter (isCand q threshold bound) (r :: rest) =
              List.filter (isCand q threshold bound) rest :=
            List.filter_cons_of_neg (by
              simp only [isCand, Bool.and_eq_true, decide_eq_true_eq, not_and]
              intro ha h1
              exact hqual ⟨ha.2, h1⟩)
          rw [scanBest, if_neg hph, if_neg hqual, ih, hfilter]
          cases hmin : natListMin ((rest.filter (isCand q threshold bound)).map
              (fun r => hammingDistance q r.perceptual_hash)) with
          | none => simp only [hmin]
          | some m =>
              have hmmem := natListMin_mem hmin
              rcases List.mem_map.mp hmmem with ⟨r', hr', hr'd⟩
              rcases List.mem_filter.mp hr' with ⟨_, hr'cand⟩
              simp only [isCand, Bool.and_eq_true, decide_eq_true_eq] at hr'cand
              simp only [hmin]
              rw [List.find?_cons_of_neg _ (by
                simp only [Bool.and_eq_true, bne_iff_ne, ne_eq,
                  decide_eq_true_eq, not_and]
                intro _ hdm
                apply hqual
                rw [hdm, ← hr'd]
                exact ⟨hr'cand.1.2, hr'cand.2⟩)]

/-- In a store whose record ids are distinct, looking a member record up by
its own id finds exactly that record. -/
theorem find?_id_self {l : List MemoryRecord} {r : MemoryRecord}
    (hmem : r ∈ l) (hnodup : (l.map (fun x => x.id)).Nodup) :
    l.find? (fun x => x.id == r.id) = some r := by
  induction l with
  | nil => exact absurd hmem (List.not_mem_nil r)
  | cons x rest ih =>
      rcases List.mem_cons.mp hmem with rfl | hmem'
      · rw [List.find?_cons_of_pos _ (by simp)]
      · have hne : x.id ≠ r.id := by
          intro he
          have : r.id ∈ rest.map (fun y => y.id) :=
            List.mem_map.mpr ⟨r, hmem', rfl⟩
          rw [← he] at this
          exact (List.nodup_cons.mp hnodup).1 this
        rw [List.find?_cons_of_neg _ (by simp [hne])]
        exact ih hmem' (List.nodup_cons.mp hnodup).2

/-! ## Claim C2: nearest perceptual match under the threshold -/

/-- C2 (amended): with the threshold below the `min_dist` initialization
(1000), distinct record ids, and non-empty ids, `find_by_perceptual_hash`
returns exactly the *first* stored record attaining the minimum
position-wise symbol-mismatch distance among the records with a non-empty
stored hash and distance within the threshold, and no record when no such
candidate exists.  Records with an empty (falsy) stored hash are skipped,
and a falsy matched id would make the function return no match — the two
situations excluded by the hypotheses. -/
theorem c2_find_by_perceptual_hash (store : Store) (q : String) (threshold : Nat)
    (_hθ : threshold < 1000)
    (hnodup : (store.memories.map (fun r => r.id)).Nodup)
    (hids : ∀ r ∈ store.memories, r.id ≠ "") :
    findByPerceptualHash store q threshold =
      match natListMin ((store.memories.filter (isCand q threshold 1000)).map
          (fun r => hammingDistance q r.perceptual_hash)) with
      | none => none
      | some m => store.memories.find? (fun r => r.perceptual_hash != "" &&
          decide (hammingDistance q r.perceptual_hash = m)) := by
  rw [findByPerceptualHash, scanBest_eq]
  cases hmin : natListMin ((store.memories.filter (isCand q threshold 1000)).map
      (fun r => hammingDistance q r.perceptual_hash)) with
  | none => rfl
  | some m =>
      have hmmem := natListMin_mem hmin
      rcases List.mem_map.mp hmmem with ⟨r', hr', hr'd⟩
      rcases List.mem_filter.mp hr' with ⟨hr'mem, _⟩
      have hsome : ∃ r0, store.memories.find? (fun r => r.perceptual_hash != "" &&
          decide (hammingDistance q r.perceptual_hash = m)) = some r0 := by
        have hex : (store.memories.find? (fun r => r.perceptual_hash != "" &&
            decide (hammingDistance q r.perceptual_hash = m))).isSome := by
          rw [List.find?_isSome]
          refine ⟨r', hr'mem, ?_⟩
          rcases List.mem_filter.mp hr' with ⟨_, hc⟩
          simp only [isCand, Bool.and_eq_true] at hc
          simp [hc.1.1, hr'd]
        exact Option.isSome_iff_exists.mp hex
      rcases hsome with ⟨r0, hr0⟩
      have hr0mem := List.mem_of_find?_eq_some hr0
      have hr0id : r0.id ≠ "" := hids r0 hr0mem
      simp only [hr0, Option.map_some']
      rw [if_neg hr0id, getMemory]
      exact find?_id_self hr0mem hnodup

/-- C2 witness: a sole record at distance exactly 4 (the threshold) is
returned; a sole record at distance 5 yields no match. -/
theorem c2_witness :
    findByPerceptualHash
        { memories := [{ id := "m1", content_hash := "c1",
                         perceptual_hash := "bbbba",
                         structured_content := .vdict [],
                         summary := .vnone, version := 1,
                         metadata := .vnone }], versions := [] }
        "aaaaa" 4 =
      some { id := "m1", content_hash := "c1", perceptual_hash := "bbbba",
             structured_content := .vdict [], summary := .vnone, version := 1,
             metadata := .vnone } ∧
    findByPerceptualHash
        { memories := [{ id := "m1", content_hash := "c1",
                         perceptual_hash := "bbbbb",
                         structured_content := .vdict [],
                         summary := .vnone, version := 1,
                         metadata := .vnone }], versions := [] }
        "aaaaa" 4 = none := by
  constructor
  · have h := c2_find_by_perceptual_hash
      { memories := [{ id := "m1", content_hash := "c1",
                       perceptual_hash := "bbbba",
                       structured_content := .vdict [],
                       summary := .vnone, version := 1,
                       metadata := .vnone }], versions := [] }
      "aaaaa" 4 (by decide) (by simp) (by decide)
    exact h.trans (by rfl)
  · rfl

/-- C2 counterexample: a stored record at distance 0 — minimal and within
the threshold — is *not* returned when its id is the empty string, because
`if best_match:` treats a falsy id as no match; so the claim fails as
stated over every set of stored records. -/
theorem c2_counterexample :
    hammingDistance "abcd" "abcd" = 0 ∧
    findByPerceptualHash
        { memories := [{ id := "", content_hash := "c1",
                         perceptual_hash := "abcd",
                         structured_content := .vdict [],
                         summary := .vnone, version := 1,
                         metadata := .vnone }], versions := [] }
        "abcd" 4 = none := ⟨rfl, rfl⟩

/-! ## Claim C10: length-mismatched hashes are never matched -/

/-- C10: a stored perceptual hash whose string length differs from the
query's gets distance 1000, and consequently — for any threshold below
1000 — the record returned by `find_by_perceptual_hash` (in a store with
distinct ids) always has a hash of exactly the query's length, so a
length-mismatched record is never returned. -/
theorem c10_length_mismatch_never_matches :
    (∀ s1 s2 : String, s1.length ≠ s2.length → hammingDistance s1 s2 = 1000) ∧
    (∀ (store : Store) (q : String) (threshold : Nat) (r : MemoryRecord),
        threshold < 1000 →
        (store.memories.map (fun x => x.id)).Nodup →
        findByPerceptualHash store q threshold = some r →
        r.perceptual_hash.length = q.length) := by
  constructor
  · intro s1 s2 h
    rw [hammingDistance, if_pos h]
  · intro store q threshold r hθ hnodup hfind
    rw [findByPerceptualHash, scanBest_eq] at hfind
    cases hmin : natListMin ((store.memories.filter (isCand q threshold 1000)).map
        (fun x => hammingDistance q x.perceptual_hash)) with
    | none =>
        simp only [hmin] at hfind
        exact Option.noConfusion hfind
    | some m =>
        simp only [hmin] at hfind
        have hmmem := natListMin_mem hmin
        rcases List.mem_map.mp hmmem with ⟨r', hr', hr'd⟩
        rcases List.mem_filter.mp hr' with ⟨hr'mem, hr'cand⟩
        simp only [isCand, Bool.and_eq_true, decide_eq_true_eq] at hr'cand
        have hmθ : m ≤ threshold := hr'd ▸ hr'cand.1.2
        cases hfq : store.memories.find? (fun x => x.perceptual_hash != "" &&
            decide (hammingDistance q x.perceptual_hash = m)) with
        | none =>
            simp only [hfq, Option.map_none'] at hfind
            exact Option.noConfusion hfind
        | some r0 =>
            simp only [hfq, Option.map_some'] at hfind
            by_cases hid : r0.id = ""
            · rw [if_pos hid] at hfind; simp at hfind
            · rw [if_neg hid] at hfind
              have hr0mem := List.mem_of_find?_eq_some hfq
              have hr0pred := List.find?_some hfq
              simp only [Bool.and_eq_true, decide_eq_true_eq] at hr0pred
              rw [getMemory, find?_id_self hr0mem hnodup] at hfind
              cases hfind
              by_contra hlen
              have h1000 : hammingDistance q r.perceptual_hash = 1000 := by
                rw [hammingDistance, if_pos (fun he => hlen he.symm)]
              rw [hr0pred.2] at h1000
              omega

/-- C10 witness: length-mismatched strings get distance 1000, and the
record returned for a concrete store/query has a hash of the query's
length. -/
theorem c10_witness :
    hammingDistance "ab" "a" = 1000 ∧
    ("abcd" : String).length = ("abcd" : String).length := by
  refine ⟨c10_length_mismatch_never_matches.1 "ab" "a" (by decide), ?_⟩
  have h := c10_length_mismatch_never_matches.2
    { memories := [{ id := "m1", content_hash := "c1",
                     perceptual_hash := "abcd",
                     structured_content := .vdict [],
                     summary := .vnone, version := 1,
                     metadata := .vnone }], versions := [] }
    "abcd" 4
    { id := "m1", content_hash := "c1", perceptual_hash := "abcd",
      structured_content := .vdict [], summary := .vnone, version := 1,
      metadata := .vnone }
    (by decide) (by simp) (by rfl)
  exact h

/-! ## Association-list lemmas for the round-trip proof -/

theorem containsKey_iff_mem_keys {k : String} {fields : List (String × Val)} :
    containsKey k fields = true ↔ k ∈ fields.map Prod.fst := by
  induction fields with
  | nil => simp [containsKey]
  | cons kv rest ih =>
      obtain ⟨k', v'⟩ := kv
      simp only [containsKey, List.map_cons, List.mem_cons, Bool.or_eq_true,
        beq_iff_eq, ih]
      constructor
      · rintro (h | h)
        · exact Or.inl h.symm
        · exact Or.inr h
      · rintro (h | h)
        · exact Or.inl h.symm
        · exact Or.inr h

theorem mem_of_lookupField {k : String} {fields : List (String × Val)} {v : Val}
    (h : lookupField k fields = some v) : (k, v) ∈ fields := by
  induction fields with
  | nil => simp [lookupField] at h
  | cons kv rest ih =>
      obtain ⟨k', v'⟩ := kv
      by_cases hk : k' = k
      · subst hk
        rw [lookupField, if_pos rfl] at h
        cases h
        exact List.mem_cons_self _ _
      · rw [lookupField, if_neg hk] at h
        exact List.mem_cons_of_mem _ (ih h)

theorem lookupField_of_mem_nodup {k : String} {v : Val}
    {fields : List (String × Val)} (hmem : (k, v) ∈ fields)
    (hnodup : (fields.map Prod.fst).Nodup) : lookupField k fields = some v := by
  induction fields with
  | nil => exact absurd hmem (List.not_mem_nil _)
  | cons kv rest ih =>
      obtain ⟨k', v'⟩ := kv
      rcases List.mem_cons.mp hmem with heq | hmem'
      · cases heq
        rw [lookupField, if_pos rfl]
      · have hk : k' ≠ k := by
          intro he
          subst he
          have : k' ∈ rest.map Prod.fst := List.mem_map.mpr ⟨(k', v), hmem', rfl⟩
          exact (List.nodup_cons.mp hnodup).1 this
        rw [lookupField, if_neg hk]
        exact ih hmem' (List.nodup_cons.mp hnodup).2

theorem lookupField_none_of_not_mem_keys {k : String} {fields : List (String × Val)}
    (h : k ∉ fields.map Prod.fst) : lookupField k fields = none := by
  apply lookupField_eq_none_of_not_containsKey
  cases hc : containsKey k fields
  · rfl
  · exact absurd (containsKey_iff_mem_keys.mp hc) h

theorem keys_setField (fields : List (String × Val)) (k : String) (v : Val) :
    (setField fields k v).map Prod.fst = fields.map Prod.fst := by
  induction fields with
  | nil => rfl
  | cons kv rest ih =>
      obtain ⟨k', v'⟩ := kv
      by_cases hk : k' = k <;> simp [setField, hk, ih]

theorem lookupField_setField_self {k : String} {fields : List (String × Val)}
    {v w : Val} (h : lookupField k fields = some v) :
    lookupField k (setField fields k w) = some w := by
  induction fields with
  | nil => simp [lookupField] at h
  | cons kv rest ih =>
      obtain ⟨k', v'⟩ := kv
      by_cases hk : k' = k
      · subst hk
        rw [setField, if_pos rfl, lookupField, if_pos rfl]
      · rw [lookupField, if_neg hk] at h
        rw [setField, if_neg hk, lookupField, if_neg hk]
        exact ih h

theorem lookupField_setField_ne {k k' : String} {fields : List (String × Val)}
    {w : Val} (h : k' ≠ k) :
    lookupField k' (setField fields k w) = lookupField k' fields := by
  induction fields with
  | nil => rfl
  | cons kv rest ih =>
      obtain ⟨k0, v0⟩ := kv
      by_cases hk : k0 = k
      · subst hk
        rw [setField, if_pos rfl]
        rw [lookupField, if_neg (fun he => h he.symm)]
        rw [lookupField, if_neg (fun he => h he.symm)]
      · rw [setField, if_neg hk]
        by_cases hk' : k0 = k'
        · subst hk'
          rw [lookupField, if_pos rfl, lookupField, if_pos rfl]
        · rw [lookupField, if_neg hk', lookupField, if_neg hk']
          exact ih

theorem setField_setField (fields : List (String × Val)) (k : String) (v w : Val) :
    setField (setField fields k v) k w = setField fields k w := by
  induction fields with
  | nil => rfl
  | cons kv rest ih =>
      obtain ⟨k', v'⟩ := kv
      by_cases hk : k' = k <;> simp [setField, hk, ih]

theorem setField_eq_self {k : String} {fields : List (String × Val)} {v : Val}
    (h : lookupField k fields = some v) : setField fields k v = fields := by
  induction fields with
  | nil => rfl
  | cons kv rest ih =>
      obtain ⟨k', v'⟩ := kv
      by_cases hk : k' = k
      · subst hk
        rw [lookupField, if_pos rfl] at h
        cases h
        rw [setField, if_pos rfl]
      · rw [lookupField, if_neg hk] at h
        rw [setField, if_neg hk, ih h]

theorem keys_eraseField_sublist (fields : List (String × Val)) (k : String) :
    ((eraseField fields k).map Prod.fst).Sublist (fields.map Prod.fst) := by
  induction fields with
  | nil => simp [eraseField]
  | cons kv rest ih =>
      obtain ⟨k', v'⟩ := kv
      by_cases hk : k' = k
      · rw [eraseField, if_pos hk]
        simp
      · rw [eraseField, if_neg hk]
        simpa using ih.cons₂ k'

theorem lookupField_eraseField_ne {k k' : String} {fields : List (String × Val)}
    (h : k' ≠ k) :
    lookupField k' (eraseField fields k) = lookupField k' fields := by
  induction fields with
  | nil => rfl
  | cons kv rest ih =>
      obtain ⟨k0, v0⟩ := kv
      by_cases hk : k0 = k
      · subst hk
        rw [eraseField, if_pos rfl]
        rw [lookupField, if_neg (fun he => h he.symm)]
      · rw [eraseField, if_neg hk]
        by_cases hk' : k0 = k'
        · subst hk'
          rw [lookupField, if_pos rfl, lookupField, if_pos rfl]
        · rw [lookupField, if_neg hk', lookupField, if_neg hk']
          exact ih

theorem lookupField_eraseField_self {k : String} {fields : List (String × Val)}
    (hnodup : (fields.map Prod.fst).Nodup) :
    lookupField k (eraseField fields k) = none := by
  induction fields with
  | nil => rfl
  | cons kv rest ih =>
      obtain ⟨k', v'⟩ := kv
      by_cases hk : k' = k
      · subst hk
        rw [eraseField, if_pos rfl]
        apply lookupField_none_of_not_mem_keys
        exact (List.nodup_cons.mp hnodup).1
      · rw [eraseField, if_neg hk, lookupField, if_neg hk]
        exact ih (List.nodup_cons.mp hnodup).2

theorem lookupField_append_of_none {k : String} {xs ys : List (String × Val)}
    (h : lookupField k xs = none) :
    lookupField k (xs ++ ys) = lookupField k ys := by
  induction xs with
  | nil => rfl
  | cons kv rest ih =>
      obtain ⟨k', v'⟩ := kv
      by_cases hk : k' = k
      · rw [lookupField, if_pos hk] at h
        cases h
      · rw [lookupField, if_neg hk] at h
        rw [List.cons_append, lookupField, if_neg hk]
        exact ih h

theorem lookupField_append_of_some {k : String} {xs ys : List (String × Val)}
    {v : Val} (h : lookupField k xs = some v) :
    lookupField k (xs ++ ys) = some v := by
  induction xs with
  | nil => simp [lookupField] at h
  | cons kv rest ih =>
      obtain ⟨k', v'⟩ := kv
      by_cases hk : k' = k
      · rw [lookupField, if_pos hk] at h
        rw [List.cons_append, lookupField, if_pos hk]
        exact h
      · rw [lookupField, if_neg hk] at h
        rw [List.cons_append, lookupField, if_neg hk]
        exact ih h

theorem nodup_same_mem_length {l1 l2 : List String} (h1 : l1.Nodup)
    (h2 : l2.Nodup) (hmem : ∀ x, x ∈ l1 ↔ x ∈ l2) : l1.length = l2.length := by
  have hfin : l1.toFinset = l2.toFinset := by
    apply Finset.ext
    intro x
    simp [List.mem_toFinset, hmem x]
  calc l1.length = l1.toFinset.card := (List.toFinset_card_of_nodup h1).symm
    _ = l2.toFinset.card := by rw [hfin]
    _ = l2.length := List.toFinset_card_of_nodup h2

/-! ## Well-formedness and reflexivity lemmas -/

theorem isSDoc_dict {f : List (String × Val)} :
    isSDoc (.vdict f) = true ↔ keysOk f = true ∧ allSDoc f = true := by
  simp [isSDoc, Bool.and_eq_true]

theorem allSDoc_mem : ∀ {f : List (String × Val)} {k : String} {v : Val},
    allSDoc f = true → (k, v) ∈ f → isSDoc v = true := by
  intro f
  induction f with
  | nil => intro k v _ h; exact absurd h (List.not_mem_nil _)
  | cons kv rest ih =>
      intro k v hall hmem
      obtain ⟨k', v'⟩ := kv
      rw [allSDoc, Bool.and_eq_true] at hall
      rcases List.mem_cons.mp hmem with heq | hmem'
      · cases heq; exact hall.1
      · exact ih hall.2 hmem'

theorem keysOk_not_private : ∀ {f : List (String × Val)} {k : String} {v : Val},
    keysOk f = true → (k, v) ∈ f → isPrivateKey k = false := by
  intro f
  induction f with
  | nil => intro k v _ h; exact absurd h (List.not_mem_nil _)
  | cons kv rest ih =>
      intro k v hok hmem
      obtain ⟨k', v'⟩ := kv
      rw [keysOk, Bool.and_eq_true, Bool.and_eq_true] at hok
      rcases List.mem_cons.mp hmem with heq | hmem'
      · cases heq
        simpa using hok.1.1
      · exact ih hok.2 hmem'

theorem keysOk_nodup : ∀ {f : List (String × Val)},
    keysOk f = true → (f.map Prod.fst).Nodup := by
  intro f
  induction f with
  | nil => intro _; simp
  | cons kv rest ih =>
      intro hok
      obtain ⟨k', v'⟩ := kv
      rw [keysOk, Bool.and_eq_true, Bool.and_eq_true] at hok
      rw [List.map_cons, List.nodup_cons]
      refine ⟨?_, ih hok.2⟩
      intro hmem
      have : containsKey k' rest = true := containsKey_iff_mem_keys.mpr hmem
      rw [this] at hok
      simpa using hok.1.2

theorem sizeOf_lt_of_mem_fields {k : String} {v : Val} {f : List (String × Val)}
    (hmem : (k, v) ∈ f) : sizeOf v < sizeOf (Val.vdict f) := by
  have h1 := List.sizeOf_lt_of_mem hmem
  have h2 : sizeOf (k, v) = 1 + sizeOf k + sizeOf v := rfl
  simp only [Val.vdict.sizeOf_spec]
  omega

theorem pyEqFields_of : ∀ {p q : List (String × Val)},
    (∀ kx ∈ p, ∃ w, lookupField kx.1 q = some w ∧ pyEq kx.2 w = true) →
    pyEqFields p q = true := by
  intro p
  induction p with
  | nil => intro q _; rfl
  | cons kv rest ih =>
      intro q h
      obtain ⟨k, x⟩ := kv
      obtain ⟨w, hw, hpe⟩ := h (k, x) (List.mem_cons_self _ _)
      rw [pyEqFields]
      simp only [hw]
      rw [Bool.and_eq_true]
      exact ⟨hpe, ih (fun kx hkx => h kx (List.mem_cons_of_mem _ hkx))⟩

theorem pyEq_refl_bounded : ∀ N : Nat, ∀ v : Val, sizeOf v < N →
    isSDoc v = true → pyEq v v = true := by
  intro N
  induction N with
  | zero => intro v h; omega
  | succ N ih =>
      intro v hlt hs
      cases v with
      | vnone => rfl
      | vbool b => simp [pyEq, Val.numVal?]
      | vint n => simp [pyEq, Val.numVal?]
      | vfloat q => simp [pyEq, Val.numVal?]
      | vstr s => simp [pyEq]
      | vlist xs => rw [isSDoc] at hs; cases hs
      | vdict f =>
          rw [pyEq, Bool.and_eq_true]
          obtain ⟨hok, hall⟩ := isSDoc_dict.mp hs
          refine ⟨by simp, ?_⟩
          apply pyEqFields_of
          intro ⟨k, x⟩ hkx
          refine ⟨x, lookupField_of_mem_nodup hkx (keysOk_nodup hok), ?_⟩
          apply ih x ?_ (allSDoc_mem hall hkx)
          have := sizeOf_lt_of_mem_fields hkx
          omega

theorem pyEq_refl (v : Val) (h : isSDoc v = true) : pyEq v v = true :=
  pyEq_refl_bounded (sizeOf v + 1) v (by omega) h

theorem isSDoc_of_lookup {b : List (String × Val)} {j : String} {w : Val}
    (hb : isSDoc (.vdict b) = true) (h : lookupField j b = some w) :
    isSDoc w = true :=
  allSDoc_mem (isSDoc_dict.mp hb).2 (mem_of_lookupField h)

/-! ## Sequencing lemma for `apply_diff` -/

theorem applyDiff_append (l1 l2 : List Op) : ∀ doc : Val,
    applyDiff doc (l1 ++ l2) =
      match applyDiff doc l1 with
      | .ok d => applyDiff d l2
      | .error e => .error e := by
  induction l1 with
  | nil => intro doc; rfl
  | cons operation rest ih =>
      intro doc
      simp only [List.cons_append, applyDiff]
      cases h : applyOne doc operation with
      | ok d => simp only [h]; exact ih d
      | error e =>
          cases e with
          | valueError => simp only [h]
          | keyError => simp only [h]; exact ih doc
          | indexError => simp only [h]; exact ih doc
          | typeError => simp only [h]; exact ih doc

/-! ## Reduction lemmas for `_compare_values` -/

theorem compareValues_mismatch {o n : Val} (htag : o.typeTag ≠ n.typeTag)
    (p : List String) :
    compareValues o n p =
      [{ op := "update", path := p, old_value := o, new_value := n,
         confidence := 1 }] := by
  rw [compareValues.eq_def, if_pos htag]

theorem compareValues_dict (a b : List (String × Val)) (p : List String) :
    compareValues (.vdict a) (.vdict b) p =
      compareFieldsOld a b p ++ addsNew a b p := by
  rw [compareValues.eq_def, if_neg (by simp [Val.typeTag])]

theorem compareValues_list (xs ys : List Val) (p : List String) :
    compareValues (.vlist xs) (.vlist ys) p = compareLists xs ys p := by
  rw [compareValues.eq_def, if_neg (by simp [Val.typeTag])]

theorem compareValues_scalar (o n : Val) (htag : o.typeTag = n.typeTag)
    (hs : o.typeTag ≠ 5 ∧ o.typeTag ≠ 6) (p : List String) :
    compareValues o n p =
      if pyEq o n then []
      else
        [{ op := "update", path := p, old_value := o, new_value := n,
           confidence := computeSimilarity o n }] := by
  cases o <;> cases n <;>
    simp_all [compareValues.eq_def, Val.typeTag]

/-! ## Path-shift lemmas: the diff at an extended path is the diff at the
original path with the extra key prefixed to every operation. -/

theorem compareLists_shift (xs ys : List Val) (k : String) (p : List String) :
    compareLists xs ys (k :: p) = (compareLists xs ys p).map (prependKey k) := by
  rw [compareLists, compareLists]
  by_cases h : xs.all isPrimitive = true ∧ ys.all isPrimitive = true
  · rw [if_pos h, if_pos h, List.map_append, List.map_map, List.map_map]
    rfl
  · rw [if_neg h, if_neg h]
    by_cases he : pyEqList xs ys = true
    · rw [if_pos he, if_pos he]; rfl
    · rw [if_neg he, if_neg he]; rfl

theorem addsNew_shift (a b : List (String × Val)) (k : String) (p : List String) :
    addsNew a b (k :: p) = (addsNew a b p).map (prependKey k) := by
  rw [addsNew, addsNew, List.map_filterMap]
  congr 1
  funext kw
  by_cases h : isPrivateKey kw.1 = true ∨ containsKey kw.1 a = true <;>
    simp [h, prependKey]

theorem compareFieldsOld_shift {b : List (String × Val)} {k : String}
    : ∀ {rest : List (String × Val)} {p : List String},
    (∀ k' v', (k', v') ∈ rest → ∀ (n : Val) (p' : List String),
      compareValues v' n (k :: p') = (compareValues v' n p').map (prependKey k)) →
    compareFieldsOld rest b (k :: p) =
      (compareFieldsOld rest b p).map (prependKey k) := by
  intro rest
  induction rest with
  | nil => intro p _; rfl
  | cons kv rest' ih =>
      intro p H
      obtain ⟨k0, v0⟩ := kv
      rw [compareFieldsOld, compareFieldsOld, List.map_append]
      have ih' := @ih p (fun k' v' hmem => H k' v' (List.mem_cons_of_mem _ hmem))
      rw [ih']
      congr 1
      by_cases hpriv : isPrivateKey k0 = true
      · rw [if_pos hpriv, if_pos hpriv]; rfl
      · rw [if_neg hpriv, if_neg hpriv]
        cases hl : lookupField k0 b with
        | none => rfl
        | some w =>
            show compareValues v0 w (k :: (p ++ [k0])) =
              List.map (prependKey k) (compareValues v0 w (p ++ [k0]))
            exact H k0 v0 (List.mem_cons_self _ _) w (p ++ [k0])

theorem compareValues_shift_bounded : ∀ N : Nat, ∀ o : Val, sizeOf o < N →
    ∀ (n : Val) (k : String) (p : List String),
      compareValues o n (k :: p) = (compareValues o n p).map (prependKey k) := by
  intro N
  induction N with
  | zero => intro o h; omega
  | succ N ih =>
      intro o hlt n k p
      by_cases htag : o.typeTag = n.typeTag
      · cases o <;> cases n <;>
          first
            | (exfalso; revert htag; simp [Val.typeTag]; done)
            | (rw [compareValues_list, compareValues_list]
               exact compareLists_shift _ _ _ _)
            | (rw [compareValues_dict, compareValues_dict, List.map_append,
                 addsNew_shift]
               congr 1
               apply compareFieldsOld_shift
               intro k' v' hmem n' p'
               apply ih v' ?_ n' k p'
               have h1 := sizeOf_lt_of_mem_fields hmem
               omega)
            | (rw [compareValues_scalar _ _ htag (by simp [Val.typeTag]),
                 compareValues_scalar _ _ htag (by simp [Val.typeTag])]
               split <;> simp_all [prependKey])
      · rw [compareValues_mismatch htag, compareValues_mismatch htag]
        rfl

theorem compareValues_shift (o n : Val) (k : String) (p : List String) :
    compareValues o n (k :: p) = (compareValues o n p).map (prependKey k) :=
  compareValues_shift_bounded (sizeOf o + 1) o (by omega) n k p

/-! ## Path-prefix lemmas: every emitted operation's path extends the
path at which the comparison ran. -/

theorem compareLists_path {xs ys : List Val} {p : List String} {op : Op}
    (h : op ∈ compareLists xs ys p) : op.path = p := by
  rw [compareLists] at h
  split at h
  · rcases List.mem_append.mp h with h1 | h1 <;>
      · obtain ⟨a, _, rfl⟩ := List.mem_map.mp h1
        rfl
  · split at h
    · exact absurd h (List.not_mem_nil op)
    · rcases List.mem_singleton.mp h with rfl
      rfl

theorem addsNew_path {a b : List (String × Val)} {p : List String} {op : Op}
    (h : op ∈ addsNew a b p) : ∃ j, op.path = p ++ [j] := by
  rw [addsNew] at h
  rcases List.mem_filterMap.mp h with ⟨kw, _, hf⟩
  by_cases hc : isPrivateKey kw.1 = true ∨ containsKey kw.1 a = true
  · rw [if_pos hc] at hf; cases hf
  · rw [if_neg hc] at hf
    cases hf
    exact ⟨kw.1, rfl⟩

theorem compareFieldsOld_path {b : List (String × Val)} :
    ∀ {rest : List (String × Val)} {p : List String} {op : Op},
    (∀ k' v', (k', v') ∈ rest → ∀ (n : Val) (p' : List String) (op' : Op),
        op' ∈ compareValues v' n p' → ∃ q, op'.path = p' ++ q) →
    op ∈ compareFieldsOld rest b p → ∃ k0 q, op.path = p ++ k0 :: q := by
  intro rest
  induction rest with
  | nil => intro p op _ h; rw [compareFieldsOld] at h; cases h
  | cons kv rest' ih =>
      intro p op H h
      obtain ⟨k0, v0⟩ := kv
      rw [compareFieldsOld] at h
      rcases List.mem_append.mp h with h1 | h1
      · by_cases hpriv : isPrivateKey k0 = true
        · rw [if_pos hpriv] at h1; cases h1
        · rw [if_neg hpriv] at h1
          cases hl : lookupField k0 b with
          | none =>
              rw [hl] at h1
              rcases List.mem_singleton.mp h1 with rfl
              exact ⟨k0, [], rfl⟩
          | some w =>
              rw [hl] at h1
              obtain ⟨q, hq⟩ :=
                H k0 v0 (List.mem_cons_self _ _) w (p ++ [k0]) op h1
              refine ⟨k0, q, ?_⟩
              rw [hq, List.append_assoc]
              rfl
      · exact ih (fun k' v' hmem => H k' v' (List.mem_cons_of_mem _ hmem)) h1

theorem compareValues_path_bounded : ∀ N : Nat, ∀ o : Val, sizeOf o < N →
    ∀ (n : Val) (p : List String) (op : Op), op ∈ compareValues o n p →
    ∃ q, op.path = p ++ q := by
  intro N
  induction N with
  | zero => intro o h; omega
  | succ N ih =>
      intro o hlt n p op h
      by_cases htag : o.typeTag = n.typeTag
      · cases o <;> cases n <;>
          first
            | (exfalso; revert htag; simp [Val.typeTag]; done)
            | (rw [compareValues_list] at h
               refine ⟨[], ?_⟩
               rw [compareLists_path h, List.append_nil])
            | (rw [compareValues_dict] at h
               rcases List.mem_append.mp h with h1 | h1
               · obtain ⟨k0, q, hq⟩ := compareFieldsOld_path
                   (fun k' v' hmem n' p' op' hop' =>
                     ih v' (by
                       have h1 := sizeOf_lt_of_mem_fields hmem
                       omega) n' p' op' hop') h1
                 exact ⟨k0 :: q, hq⟩
               · obtain ⟨j, hj⟩ := addsNew_path h1
                 exact ⟨[j], hj⟩)
            | (rw [compareValues_scalar _ _ htag (by simp [Val.typeTag])] at h
               split at h
               · exact absurd h (List.not_mem_nil op)
               · rcases List.mem_singleton.mp h with rfl
                 exact ⟨[], (List.append_nil p).symm⟩)
      · rw [compareValues_mismatch htag] at h
        rcases List.mem_singleton.mp h with rfl
        exact ⟨[], (List.append_nil p).symm⟩

theorem compareValues_path (o n : Val) (p : List String) (op : Op)
    (h : op ∈ compareValues o n p) : ∃ q, op.path = p ++ q :=
  compareValues_path_bounded (sizeOf o + 1) o (by omega) n p op h

/-- Every operation of the root-level dict diff has a non-empty path. -/
theorem rootOps_path_ne {a b : List (String × Val)} {op : Op}
    (h : op ∈ compareFieldsOld a b [] ++ addsNew a b []) : op.path ≠ [] := by
  rcases List.mem_append.mp h with h1 | h1
  · obtain ⟨k0, q, hq⟩ := compareFieldsOld_path
      (fun k' v' _ n' p' op' hop' => compareValues_path v' n' p' op' hop') h1
    rw [hq]
    simp
  · obtain ⟨j, hj⟩ := addsNew_path h1
    rw [hj]
    simp

/-! ## Embedding lemma: applying re-rooted operations to a surrounding
dict equals applying the originals to the targeted field. -/

theorem applyOne_prepend {k : String} {fields : List (String × Val)} {v : Val}
    (hlook : lookupField k fields = some v) (op : Op) (hne : op.path ≠ []) :
    applyOne (.vdict fields) (prependKey k op) =
      Except.map (fun w => Val.vdict (setField fields k w)) (applyOne v op) := by
  obtain ⟨h, t, hpath⟩ : ∃ h t, op.path = h :: t := by
    cases hp : op.path with
    | nil => exact absurd hp hne
    | cons h t => exact ⟨h, t, rfl⟩
  have hset : setOrAddField fields k = setField fields k := by
    funext w
    rw [setOrAddField, if_pos (containsKey_of_lookupField hlook)]
  simp only [applyOne, prependKey]
  by_cases hu : op.op = "update"
  · rw [if_pos hu, if_pos hu, hpath]
    show updateNested (.vdict fields) (k :: h :: t) op.new_value =
      Except.map (fun w => Val.vdict (setField fields k w))
        (updateNested v (h :: t) op.new_value)
    rw [updateNested]
    simp only [hlook, Option.getD_some]
    cases hres : updateNested v (h :: t) op.new_value with
    | ok w => simp [hres, Except.map, hset]
    | error e => simp [hres, Except.map]
    all_goals simp
  · rw [if_neg hu, if_neg hu]
    by_cases ha : op.op = "add"
    · rw [if_pos ha, if_pos ha, hpath]
      show addToNested (.vdict fields) (k :: h :: t) op.new_value =
        Except.map (fun w => Val.vdict (setField fields k w))
          (addToNested v (h :: t) op.new_value)
      rw [addToNested]
      simp only [hlook, Option.getD_some]
      cases hres : addToNested v (h :: t) op.new_value with
      | ok w => simp [hres, Except.map, hset]
      | error e => simp [hres, Except.map]
      all_goals simp
    · rw [if_neg ha, if_neg ha]
      by_cases hr : op.op = "remove"
      · rw [if_pos hr, if_pos hr, hpath]
        show removeFromNested (.vdict fields) (k :: h :: t) =
          Except.map (fun w => Val.vdict (setField fields k w))
            (removeFromNested v (h :: t))
        rw [removeFromNested]
        simp only [hlook]
        cases hres : removeFromNested v (h :: t) with
        | ok w => simp [hres, Except.map]
        | error e => simp [hres, Except.map]
        all_goals simp
      · rw [if_neg hr, if_neg hr]
        show Except.ok (Val.vdict fields) =
          Except.map (fun w => Val.vdict (setField fields k w)) (.ok v)
        simp [Except.map, setField_eq_self hlook]

theorem applyDiff_prepend {k : String} : ∀ (ops : List Op)
    (fields : List (String × Val)) (v : Val),
    lookupField k fields = some v → (∀ op ∈ ops, op.path ≠ []) →
    applyDiff (.vdict fields) (ops.map (prependKey k)) =
      Except.map (fun w => Val.vdict (setField fields k w)) (applyDiff v ops) := by
  intro ops
  induction ops with
  | nil =>
      intro fields v hlook _
      simp [applyDiff, Except.map, setField_eq_self hlook]
  | cons op rest ih =>
      intro fields v hlook hne
      rw [List.map_cons, applyDiff, applyDiff]
      rw [applyOne_prepend hlook op (hne op (List.mem_cons_self _ _))]
      cases hres : applyOne v op with
      | ok w =>
          simp only [hres, Except.map]
          have hlook' : lookupField k (setField fields k w) = some w :=
            lookupField_setField_self hlook
          rw [ih (setField fields k w) w hlook'
            (fun op' hop' => hne op' (List.mem_cons_of_mem _ hop'))]
          cases applyDiff w rest <;> simp [Except.map, setField_setField]
      | error e =>
          cases e with
          | valueError => simp [hres, Except.map]
          | keyError =>
              simp only [hres, Except.map]
              exact ih fields v hlook
                (fun op' hop' => hne op' (List.mem_cons_of_mem _ hop'))
          | indexError =>
              simp only [hres, Except.map]
              exact ih fields v hlook
                (fun op' hop' => hne op' (List.mem_cons_of_mem _ hop'))
          | typeError =>
              simp only [hres, Except.map]
              exact ih fields v hlook
                (fun op' hop' => hne op' (List.mem_cons_of_mem _ hop'))

/-! ## Roundtrip of the structured diff on scalar-and-mapping documents -/

theorem mem_keys_iff_lookup {k : String} {fields : List (String × Val)} :
    k ∈ fields.map Prod.fst ↔ ∃ v, lookupField k fields = some v := by
  induction fields with
  | nil => simp [lookupField]
  | cons kv rest ih =>
      obtain ⟨k', v'⟩ := kv
      by_cases hk : k' = k
      · subst hk
        simp [lookupField]
      · rw [List.map_cons, List.mem_cons, lookupField, if_neg hk, ih]
        constructor
        · rintro (h | h)
          · exact absurd h.symm hk
          · exact h
        · intro h
          exact Or.inr h

theorem applyDiff_single_update (fields : List (String × Val)) (k : String)
    (hc : containsKey k fields = true) (nv ov : Val) (c : Rat) :
    applyDiff (.vdict fields)
      [{ op := "update", path := [k], old_value := ov, new_value := nv,
         confidence := c }] = .ok (.vdict (setField fields k nv)) := by
  simp [applyDiff, applyOne, updateNested, setOrAddField, hc]

theorem applyDiff_single_remove (fields : List (String × Val)) (k : String)
    (hc : containsKey k fields = true) (ov : Val) :
    applyDiff (.vdict fields)
      [{ op := "remove", path := [k], old_value := ov }] =
      .ok (.vdict (eraseField fields k)) := by
  simp [applyDiff, applyOne, removeFromNested, hc]

/-- Applying the old-keys pass of the dict diff: every surviving key keeps a
value Python-equal to the new dict's, removed keys disappear, keys outside
the processed entries are untouched, and key distinctness is preserved. -/
theorem compareFieldsOld_apply {b : List (String × Val)}
    (hb : isSDoc (.vdict b) = true) :
    ∀ (rest : List (String × Val)),
    (∀ k0 v0, (k0, v0) ∈ rest → ∀ (n : Val) (k : String) (g : List (String × Val)),
        lookupField k g = some v0 → isSDoc v0 = true → isSDoc n = true →
        ∃ w, applyDiff (.vdict g) (compareValues v0 n [k]) =
          .ok (.vdict (setField g k w)) ∧ pyEq w n = true) →
    (∀ k0 v0, (k0, v0) ∈ rest → isPrivateKey k0 = false) →
    (rest.map Prod.fst).Nodup →
    (∀ k0 v0, (k0, v0) ∈ rest → isSDoc v0 = true) →
    ∀ (fields : List (String × Val)),
    (∀ k0 v0, (k0, v0) ∈ rest → lookupField k0 fields = some v0) →
    (fields.map Prod.fst).Nodup →
    ∃ f2, applyDiff (.vdict fields) (compareFieldsOld rest b []) = .ok (.vdict f2) ∧
      (f2.map Prod.fst).Nodup ∧
      (∀ k, k ∉ rest.map Prod.fst → lookupField k f2 = lookupField k fields) ∧
      (∀ k0 v0, (k0, v0) ∈ rest →
        (∀ w, lookupField k0 b = some w →
          ∃ v2, lookupField k0 f2 = some v2 ∧ pyEq v2 w = true) ∧
        (lookupField k0 b = none → lookupField k0 f2 = none)) := by
  intro rest
  induction rest with
  | nil =>
      intro _ _ _ _ fields _ hnodf
      exact ⟨fields, rfl, hnodf, fun k _ => rfl,
        fun k0 v0 hm => absurd hm (List.not_mem_nil _)⟩
  | cons kv0 rest' ih =>
      intro H hpriv hnodr hall fields hlk hnodf
      obtain ⟨k0, v0⟩ := kv0
      rw [List.map_cons] at hnodr
      obtain ⟨hk0not, hnodr'⟩ := List.nodup_cons.mp hnodr
      have hp0 : isPrivateKey k0 = false := hpriv k0 v0 (List.mem_cons_self _ _)
      have hlk0 : lookupField k0 fields = some v0 := hlk k0 v0 (List.mem_cons_self _ _)
      have hkne : ∀ k1 v1, (k1, v1) ∈ rest' → k1 ≠ k0 := by
        intro k1 v1 hm he
        exact hk0not (List.mem_map.mpr ⟨(k1, v1), hm, he⟩)
      cases hlb : lookupField k0 b with
      | none =>
          have hsplit : compareFieldsOld ((k0, v0) :: rest') b [] =
              [{ op := "remove", path := [k0], old_value := v0 }] ++
                compareFieldsOld rest' b [] := by
            rw [compareFieldsOld, if_neg (by simp [hp0]), hlb]
            rfl
          obtain ⟨f2, happ, hnod2, hun, hper⟩ := ih
            (fun k1 v1 hm => H k1 v1 (List.mem_cons_of_mem _ hm))
            (fun k1 v1 hm => hpriv k1 v1 (List.mem_cons_of_mem _ hm))
            hnodr'
            (fun k1 v1 hm => hall k1 v1 (List.mem_cons_of_mem _ hm))
            (eraseField fields k0)
            (fun k1 v1 hm => by
              rw [lookupField_eraseField_ne (hkne k1 v1 hm)]
              exact hlk k1 v1 (List.mem_cons_of_mem _ hm))
            ((keys_eraseField_sublist fields k0).nodup hnodf)
          refine ⟨f2, ?_, hnod2, ?_, ?_⟩
          · rw [hsplit, applyDiff_append,
              applyDiff_single_remove fields k0 (containsKey_of_lookupField hlk0) v0]
            exact happ
          · intro k hk
            rw [List.map_cons] at hk
            have hk1 : k ≠ k0 := fun he => hk (he ▸ List.mem_cons_self _ _)
            have hk2 : k ∉ rest'.map Prod.fst := fun hm => hk (List.mem_cons_of_mem _ hm)
            rw [hun k hk2, lookupField_eraseField_ne hk1]
          · intro k1 v1 hm
            rcases List.mem_cons.mp hm with heq | hm'
            · injection heq with he1 he2
              subst he1
              subst he2
              constructor
              · intro w hw
                rw [hlb] at hw
                cases hw
              · intro _
                rw [hun k1 hk0not]
                exact lookupField_eraseField_self hnodf
            · exact hper k1 v1 hm'
      | some w0 =>
          have hsplit : compareFieldsOld ((k0, v0) :: rest') b [] =
              compareValues v0 w0 [k0] ++ compareFieldsOld rest' b [] := by
            rw [compareFieldsOld, if_neg (by simp [hp0]), hlb]
            rfl
          obtain ⟨u, hu, hpeu⟩ := H k0 v0 (List.mem_cons_self _ _) w0 k0 fields hlk0
            (hall k0 v0 (List.mem_cons_self _ _)) (isSDoc_of_lookup hb hlb)
          obtain ⟨f2, happ, hnod2, hun, hper⟩ := ih
            (fun k1 v1 hm => H k1 v1 (List.mem_cons_of_mem _ hm))
            (fun k1 v1 hm => hpriv k1 v1 (List.mem_cons_of_mem _ hm))
            hnodr'
            (fun k1 v1 hm => hall k1 v1 (List.mem_cons_of_mem _ hm))
            (setField fields k0 u)
            (fun k1 v1 hm => by
              rw [lookupField_setField_ne (hkne k1 v1 hm)]
              exact hlk k1 v1 (List.mem_cons_of_mem _ hm))
            (by rw [keys_setField]; exact hnodf)
          refine ⟨f2, ?_, hnod2, ?_, ?_⟩
          · rw [hsplit, applyDiff_append, hu]
            exact happ
          · intro k hk
            rw [List.map_cons] at hk
            have hk1 : k ≠ k0 := fun he => hk (he ▸ List.mem_cons_self _ _)
            have hk2 : k ∉ rest'.map Prod.fst := fun hm => hk (List.mem_cons_of_mem _ hm)
            rw [hun k hk2, lookupField_setField_ne hk1]
          · intro k1 v1 hm
            rcases List.mem_cons.mp hm with heq | hm'
            · injection heq with he1 he2
              subst he1
              subst he2
              constructor
              · intro w hw
                rw [hlb] at hw
                injection hw with hww
                subst hww
                refine ⟨u, ?_, hpeu⟩
                rw [hun k1 hk0not]
                exact lookupField_setField_self hlk0
              · intro hw
                rw [hlb] at hw
                cases hw
            · exact hper k1 v1 hm'

/-- Applying the new-keys pass of the dict diff: the non-private keys of the
new dict that are absent from the old dict are appended in order. -/
theorem addsNew_apply (a : List (String × Val)) :
    ∀ (bs fields : List (String × Val)),
    (bs.map Prod.fst).Nodup →
    (∀ j w, (j, w) ∈ bs → ¬isPrivateKey j = true → ¬containsKey j a = true →
      lookupField j fields = none) →
    applyDiff (.vdict fields) (addsNew a bs []) =
      .ok (.vdict (fields ++
        bs.filter (fun kv => !(isPrivateKey kv.1) && !(containsKey kv.1 a)))) := by
  intro bs
  induction bs with
  | nil => intro fields _ _; simp [addsNew, applyDiff]
  | cons jw bs' ih =>
      intro fields hnod hlk
      obtain ⟨j, wv⟩ := jw
      rw [List.map_cons] at hnod
      obtain ⟨hjnot, htl⟩ := List.nodup_cons.mp hnod
      by_cases hcond : isPrivateKey j = true ∨ containsKey j a = true
      · have hsplit : addsNew a ((j, wv) :: bs') [] = addsNew a bs' [] := by
          simp only [addsNew, List.filterMap_cons]
          rw [if_pos hcond]
        have hpredf : ¬((fun kv : String × Val =>
            !(isPrivateKey kv.1) && !(containsKey kv.1 a)) (j, wv) = true) := by
          rcases hcond with h | h <;> simp [h]
        rw [hsplit, List.filter_cons, if_neg hpredf]
        exact ih fields htl
          (fun j1 w1 hm => hlk j1 w1 (List.mem_cons_of_mem _ hm))
      · have hp : isPrivateKey j = false := by
          cases h : isPrivateKey j
          · rfl
          · exact absurd (Or.inl h) hcond
        have hcnt : containsKey j a = false := by
          cases h : containsKey j a
          · rfl
          · exact absurd (Or.inr h) hcond
        have hsplit : addsNew a ((j, wv) :: bs') [] =
            { op := "add", path := [j], new_value := wv } :: addsNew a bs' [] := by
          simp only [addsNew, List.filterMap_cons]
          rw [if_neg hcond]
          rfl
        have hlkj : lookupField j fields = none :=
          hlk j wv (List.mem_cons_self _ _) (by simp [hp]) (by simp [hcnt])
        have h1 : applyOne (.vdict fields) { op := "add", path := [j], new_value := wv } =
            .ok (.vdict (fields ++ [(j, wv)])) := by
          simp [applyOne, addToNested, hlkj]
        have hpred : ((fun kv : String × Val =>
            !(isPrivateKey kv.1) && !(containsKey kv.1 a)) (j, wv)) = true := by
          simp [hp, hcnt]
        rw [hsplit, applyDiff, h1, List.filter_cons, if_pos hpred]
        show applyDiff (.vdict (fields ++ [(j, wv)])) (addsNew a bs' []) = _
        have hlk' : ∀ j1 w1, (j1, w1) ∈ bs' → ¬isPrivateKey j1 = true →
            ¬containsKey j1 a = true → lookupField j1 (fields ++ [(j, wv)]) = none := by
          intro j1 w1 hm hp1 hc1
          have hne : ¬(j = j1) := by
            intro he
            exact hjnot (by rw [he]; exact List.mem_map.mpr ⟨(j1, w1), hm, rfl⟩)
          rw [lookupField_append_of_none (hlk j1 w1 (List.mem_cons_of_mem _ hm) hp1 hc1),
            lookupField, if_neg hne, lookupField]
        rw [ih (fields ++ [(j, wv)]) htl hlk', List.append_assoc]
        rfl

/-- Root assembly: applying the full dict diff of `a` against `b` to `a`
succeeds and yields a dict Python-equal to `b`, assuming the per-value
roundtrip property for every member of `a`. -/
theorem diff_apply_root (a b : List (String × Val))
    (H : ∀ k0 v0, (k0, v0) ∈ a → ∀ (n : Val) (k : String) (g : List (String × Val)),
        lookupField k g = some v0 → isSDoc v0 = true → isSDoc n = true →
        ∃ w, applyDiff (.vdict g) (compareValues v0 n [k]) =
          .ok (.vdict (setField g k w)) ∧ pyEq w n = true)
    (ha : isSDoc (.vdict a) = true) (hb : isSDoc (.vdict b) = true) :
    ∃ f2, applyDiff (.vdict a) (compareFieldsOld a b [] ++ addsNew a b []) =
        .ok (.vdict f2) ∧ pyEq (.vdict f2) (.vdict b) = true := by
  obtain ⟨hoka, halla⟩ := isSDoc_dict.mp ha
  obtain ⟨hokb, hallb⟩ := isSDoc_dict.mp hb
  have hnoda := keysOk_nodup hoka
  have hnodb := keysOk_nodup hokb
  obtain ⟨f2, happ, hnod2, hun, hper⟩ := compareFieldsOld_apply hb a H
    (fun k0 v0 hm => keysOk_not_private hoka hm)
    hnoda
    (fun k0 v0 hm => allSDoc_mem halla hm)
    a
    (fun k0 v0 hm => lookupField_of_mem_nodup hm hnoda)
    hnoda
  have hlkB : ∀ j w, (j, w) ∈ b → ¬isPrivateKey j = true → ¬containsKey j a = true →
      lookupField j f2 = none := by
    intro j w hm hp hcnt
    have hkna : j ∉ a.map Prod.fst := fun hmm => hcnt (containsKey_iff_mem_keys.mpr hmm)
    rw [hun j hkna]
    exact lookupField_none_of_not_mem_keys hkna
  have hB := addsNew_apply a b f2 hnodb hlkB
  have hmemf2 : ∀ k, k ∈ f2.map Prod.fst ↔
      (k ∈ a.map Prod.fst ∧ k ∈ b.map Prod.fst) := by
    intro k
    constructor
    · intro hk
      obtain ⟨x, hx⟩ := mem_keys_iff_lookup.mp hk
      by_cases hka : k ∈ a.map Prod.fst
      · refine ⟨hka, ?_⟩
        obtain ⟨⟨k1, v1⟩, hmv, hfst⟩ := List.mem_map.mp hka
        have hke : k1 = k := hfst
        subst hke
        cases hlb : lookupField k1 b with
        | none =>
            rw [(hper k1 v1 hmv).2 hlb] at hx
            cases hx
        | some w => exact mem_keys_iff_lookup.mpr ⟨w, hlb⟩
      · rw [hun k hka, lookupField_none_of_not_mem_keys hka] at hx
        cases hx
    · rintro ⟨hka, hkb⟩
      obtain ⟨⟨k1, v1⟩, hmv, hfst⟩ := List.mem_map.mp hka
      have hke : k1 = k := hfst
      subst hke
      obtain ⟨w, hlb⟩ := mem_keys_iff_lookup.mp hkb
      obtain ⟨v2, hv2, _⟩ := (hper k1 v1 hmv).1 w hlb
      exact mem_keys_iff_lookup.mpr ⟨v2, hv2⟩
  have hmemfil : ∀ k, k ∈ (b.filter (fun kv =>
      !(isPrivateKey kv.1) && !(containsKey kv.1 a))).map Prod.fst ↔
      (k ∈ b.map Prod.fst ∧ k ∉ a.map Prod.fst) := by
    intro k
    constructor
    · intro hk
      obtain ⟨⟨k1, v1⟩, hmv, hfst⟩ := List.mem_map.mp hk
      have hke : k1 = k := hfst
      subst hke
      obtain ⟨hmb, hpredm⟩ := List.mem_filter.mp hmv
      refine ⟨List.mem_map.mpr ⟨(k1, v1), hmb, rfl⟩, ?_⟩
      intro hka
      have hc : containsKey k1 a = true := containsKey_iff_mem_keys.mpr hka
      simp [hc] at hpredm
    · rintro ⟨hkb, hka⟩
      obtain ⟨⟨k1, v1⟩, hmv, hfst⟩ := List.mem_map.mp hkb
      have hke : k1 = k := hfst
      subst hke
      have hc : containsKey k1 a = false := by
        cases hcc : containsKey k1 a
        · rfl
        · exact absurd (containsKey_iff_mem_keys.mp hcc) hka
      have hp : isPrivateKey k1 = false := keysOk_not_private hokb hmv
      refine List.mem_map.mpr ⟨(k1, v1), List.mem_filter.mpr ⟨hmv, ?_⟩, rfl⟩
      simp [hp, hc]
  have hsubf : (b.filter (fun kv =>
      !(isPrivateKey kv.1) && !(containsKey kv.1 a))).Sublist b :=
    List.filter_sublist _
  have hnodfil : ((b.filter (fun kv =>
      !(isPrivateKey kv.1) && !(containsKey kv.1 a))).map Prod.fst).Nodup :=
    (hsubf.map Prod.fst).nodup hnodb
  have hdisj : List.Disjoint (f2.map Prod.fst) ((b.filter (fun kv =>
      !(isPrivateKey kv.1) && !(containsKey kv.1 a))).map Prod.fst) := by
    intro k h1 h2
    exact ((hmemfil k).mp h2).2 ((hmemf2 k).mp h1).1
  have hnodfinal : (((f2 ++ b.filter (fun kv =>
      !(isPrivateKey kv.1) && !(containsKey kv.1 a))).map Prod.fst)).Nodup := by
    rw [List.map_append]
    exact hnod2.append hnodfil hdisj
  have hmemfinal : ∀ k, k ∈ (f2 ++ b.filter (fun kv =>
      !(isPrivateKey kv.1) && !(containsKey kv.1 a))).map Prod.fst ↔
      k ∈ b.map Prod.fst := by
    intro k
    rw [List.map_append, List.mem_append, hmemf2 k, hmemfil k]
    constructor
    · rintro (⟨_, h⟩ | ⟨h, _⟩) <;> exact h
    · intro hkb
      by_cases hka : k ∈ a.map Prod.fst
      · exact Or.inl ⟨hka, hkb⟩
      · exact Or.inr ⟨hkb, hka⟩
  have hlen : (f2 ++ b.filter (fun kv =>
      !(isPrivateKey kv.1) && !(containsKey kv.1 a))).length = b.length := by
    have h0 := nodup_same_mem_length hnodfinal hnodb hmemfinal
    simpa using h0
  refine ⟨f2 ++ b.filter (fun kv =>
      !(isPrivateKey kv.1) && !(containsKey kv.1 a)), ?_, ?_⟩
  · rw [applyDiff_append, happ]
    exact hB
  · rw [pyEq, Bool.and_eq_true]
    refine ⟨by simp [hlen], ?_⟩
    apply pyEqFields_of
    intro kx hkx
    obtain ⟨k, x⟩ := kx
    rcases List.mem_append.mp hkx with hin | hin
    · have hlx : lookupField k f2 = some x := lookupField_of_mem_nodup hin hnod2
      by_cases hka : k ∈ a.map Prod.fst
      · obtain ⟨⟨k1, v1⟩, hmv, hfst⟩ := List.mem_map.mp hka
        have hke : k1 = k := hfst
        subst hke
        cases hlb : lookupField k1 b with
        | none =>
            rw [(hper k1 v1 hmv).2 hlb] at hlx
            cases hlx
        | some w =>
            obtain ⟨v2, hv2, hpe⟩ := (hper k1 v1 hmv).1 w hlb
            rw [hlx] at hv2
            injection hv2 with hv2e
            subst hv2e
            exact ⟨w, rfl, hpe⟩
      · rw [hun k hka, lookupField_none_of_not_mem_keys hka] at hlx
        cases hlx
    · obtain ⟨hmb, _⟩ := List.mem_filter.mp hin
      exact ⟨x, lookupField_of_mem_nodup hmb hnodb,
        pyEq_refl x (allSDoc_mem hallb hmb)⟩

/-- Per-value roundtrip: applying the diff of a field's value against a new
value, rooted at that field, rewrites the field to something Python-equal
to the new value.  Strong induction on the size of the old value. -/
theorem compareValues_apply_bounded : ∀ N : Nat, ∀ o : Val, sizeOf o < N →
    ∀ (n : Val) (k : String) (fields : List (String × Val)),
    lookupField k fields = some o → isSDoc o = true → isSDoc n = true →
    ∃ w, applyDiff (.vdict fields) (compareValues o n [k]) =
      .ok (.vdict (setField fields k w)) ∧ pyEq w n = true := by
  intro N
  induction N with
  | zero => intro o h; omega
  | succ N ih =>
      intro o hlt n k fields hlook hso hsn
      have hc : containsKey k fields = true := containsKey_of_lookupField hlook
      by_cases htag : o.typeTag = n.typeTag
      · cases o <;> cases n <;>
          first
            | (exfalso; revert htag; simp [Val.typeTag]; done)
            | (exfalso; revert hso; simp [isSDoc]; done)
            | (rw [compareValues_shift, compareValues_dict]
               obtain ⟨f2, happ, hpe⟩ := diff_apply_root _ _
                 (fun k1 v1 hm n1 k2 g hl hs1 hs2 =>
                   ih v1 (by
                     have h1 := sizeOf_lt_of_mem_fields hm
                     omega) n1 k2 g hl hs1 hs2)
                 hso hsn
               refine ⟨.vdict f2, ?_, hpe⟩
               rw [applyDiff_prepend _ fields _ hlook
                 (fun op hop => rootOps_path_ne hop), happ]
               rfl)
            | (rw [compareValues_scalar _ _ htag (by simp [Val.typeTag])]
               split
               next hpe =>
                 exact ⟨_, by rw [setField_eq_self hlook]; rfl, hpe⟩
               next hpe =>
                 exact ⟨_, applyDiff_single_update fields k hc _ _ _,
                   pyEq_refl _ hsn⟩)
      · refine ⟨n, ?_, pyEq_refl n hsn⟩
        rw [compareValues_mismatch htag]
        exact applyDiff_single_update fields k hc n o 1

theorem compareValues_apply (o n : Val) (k : String) (fields : List (String × Val))
    (hlook : lookupField k fields = some o) (hso : isSDoc o = true)
    (hsn : isSDoc n = true) :
    ∃ w, applyDiff (.vdict fields) (compareValues o n [k]) =
      .ok (.vdict (setField fields k w)) ∧ pyEq w n = true :=
  compareValues_apply_bounded (sizeOf o + 1) o (by omega) n k fields hlook hso hsn

/-- C1 (corrected).  For documents `X` and `Y` containing only scalar and
mapping fields — no lists anywhere, dict keys distinct, and no key starting
with an underscore (`_compute_structured_diff` silently skips `_`-prefixed
keys, so such keys break the roundtrip) — applying the structured diff of
`X` against `Y` to `X` via `apply_diff` succeeds and reproduces `Y` up to
Python `==` equality. -/
theorem c1_patch_reproduces (X Y : List (String × Val))
    (hX : isSDoc (.vdict X) = true) (hY : isSDoc (.vdict Y) = true) :
    ∃ Z, applyDiff (.vdict X) (computeStructuredDiff X Y) = .ok (.vdict Z) ∧
      pyEq (.vdict Z) (.vdict Y) = true :=
  diff_apply_root X Y
    (fun _ v0 _ n k g hl hs1 hs2 => compareValues_apply v0 n k g hl hs1 hs2)
    hX hY

/-- Witness for C1 at a concrete pair of documents: an update of one field
plus an addition of a new one. -/
theorem c1_witness :
    isSDoc (.vdict [("a", Val.vint 1)]) = true ∧
    isSDoc (.vdict [("a", Val.vint 2), ("b", Val.vstr "x")]) = true ∧
    (∃ Z, applyDiff (.vdict [("a", Val.vint 1)])
        (computeStructuredDiff [("a", Val.vint 1)]
          [("a", Val.vint 2), ("b", Val.vstr "x")]) = .ok (.vdict Z) ∧
      pyEq (.vdict Z) (.vdict [("a", Val.vint 2), ("b", Val.vstr "x")]) = true) := by
  have hp1 : isPrivateKey "a" = false := by decide
  have hp2 : isPrivateKey "b" = false := by decide
  have hX : isSDoc (.vdict [("a", Val.vint 1)]) = true := by
    simp [isSDoc, allSDoc, keysOk, containsKey, hp1]
  have hY : isSDoc (.vdict [("a", Val.vint 2), ("b", Val.vstr "x")]) = true := by
    simp [isSDoc, allSDoc, keysOk, containsKey, hp1, hp2]
  exact ⟨hX, hY, c1_patch_reproduces _ _ hX hY⟩

/-- Counterexample to C1 as stated: underscore-prefixed keys are skipped by
the diff, so patching `\x7b\x7d` with the diff against `\x7b"_a": 1\x7d`
returns `\x7b\x7d`, which is not Python-equal to the target document. -/
theorem c1_counterexample :
    applyDiff (.vdict []) (computeStructuredDiff [] [("_a", Val.vint 1)]) =
      .ok (.vdict []) ∧
    pyEq (.vdict []) (.vdict [("_a", Val.vint 1)]) = false := by
  constructor
  · have h : computeStructuredDiff [] [("_a", Val.vint 1)] = [] := by
      rw [computeStructuredDiff, compareFieldsOld]
      rfl
    rw [h]
    rfl
  · rw [pyEq]
    rfl

end SSAnalyzer
